import Mathlib

/-!
A shallow embedding of the open-addressed hash table in `src/hashtable.h`
(single-header C implementation: `HT_new` / `HT_put` / `HT_get` / `HT_exists` /
`HT_remove` / `_HT_expand` / `_HT_hash` / `_HT_round_up` / `_HT_calc_expansion`),
together with proofs about it.

Modelling conventions, fixed once for the whole file:

* A C string (a `const char *` key) is modelled as the list of its bytes up to
  but excluding the terminating zero, so a well-formed key is a `List Nat`
  whose elements are nonzero and below 256 (`validKey`).  Reading the string
  at an index past the end of the list corresponds to reading the terminator
  (or the zero padding `strncpy` would produce), i.e. yields byte 0.
* `char` is modelled as unsigned (byte values `0..255`); signedness of `char`
  is implementation-defined in C and all concrete inputs used below are ASCII,
  where the two conventions agree.
* `size_t` and `unsigned long` values are modelled as `Nat`.  The hash
  accumulator, where 64-bit wrap-around is essential, reduces modulo `2^64`
  (`UL`) exactly as the C code wraps.  The table counters (`n`, `cap`,
  `ins_loc`, `max_probe`, `expand`) stay far below `2^64` in every execution
  a real machine can perform, so their arithmetic is kept exact; the one
  decrement (`table->n--` in `HT_remove`) is guarded by a found occupied
  bucket, which forces `n ≥ 1` under the representation invariant proved
  below, making `Nat` truncation agree with the `size_t` decrement.
* `void *` values are `Option Nat`: `none` is the null pointer, `some x` an
  arbitrary non-null value handle.
* The pluggable strategies are fixed to the defaults installed by `HT_new`:
  hash `_HT_hash`, comparator `strncmp`, deallocator `free`; the load factor
  is the default `HT_DEFAULT_LOAD_FACTOR = 0.75`.  For the capacities the
  table uses (powers of two up to `2^31` and beyond), the C expression
  `(size_t)(0.75f * capacity)` is exact and equals `capacity * 3 / 4`, which
  is how `_HT_calc_expansion` is rendered.
* `calloc` failure in `_HT_expand` is modelled by a boolean oracle `allocOk`
  passed to `HT_put`; in the C code both failure exits of `_HT_expand` happen
  before the table is mutated, so on failure the table is returned unchanged.
* Out-of-bounds writes cannot be represented inside a `List`-based heap:
  `List.set` at an index past the end is a no-op.  The one out-of-bounds
  write the code can perform (the terminator store `e->k[key_len + 1]` when
  `key_len = HT_MAX_KEY_LEN - 1`) is analysed separately through
  `putKeyWriteIdx`, the list of buffer indices the insert path writes.
-/

set_option maxRecDepth 16384

/-- `2^64`, the modulus of `unsigned long` / `size_t` on the 64-bit targets
the header is written for. -/
def UL : Nat := 2 ^ 64

/-- `#define HT_MAX_KEY_LEN 32`. -/
def HT_MAX_KEY_LEN : Nat := 32

/-- `#define HT_DEFAULT_CAPACITY 16`. -/
def HT_DEFAULT_CAPACITY : Nat := 16

/-- `#define HT_MAX_CAPACITY (1 << 30)`. -/
def HT_MAX_CAPACITY : Nat := 1 <<< 30

/-- `#define HT_BUCKET_OCCUPIED 0`. -/
def HT_BUCKET_OCCUPIED : Int := 0

/-- `#define HT_EMPTY_BUCKET (-1)`. -/
def HT_EMPTY_BUCKET : Int := -1

/-- `#define HT_DELETED_BUCKET (-2)`. -/
def HT_DELETED_BUCKET : Int := -2

/-- `HT_BUCKET_T`: one slot of the index array. -/
structure HT_BUCKET_T where
  hashcode : Nat
  loc : Nat
  state : Int
  deriving DecidableEq

/-- `HT_ENTRY_T`: one record of the entries array.  The fixed `char k[32]`
buffer is a 32-element byte list. -/
structure HT_ENTRY_T where
  k : List Nat
  k_len : Nat
  v : Option Nat
  deriving DecidableEq

/-- `HT_T`: the table header.  The three strategy pointers are fixed to the
defaults and the load factor to 0.75, per the modelling conventions. -/
structure HT_T where
  index : List HT_BUCKET_T
  values : List HT_ENTRY_T
  n : Nat
  cap : Nat
  expand : Nat
  max_probe : Nat
  ins_loc : Nat
  deriving DecidableEq

/-- The bucket value `calloc` plus the constructor loop produce:
hashcode 0, loc 0, state EMPTY. -/
def emptyBucket : HT_BUCKET_T :=
  { hashcode := 0, loc := 0, state := HT_EMPTY_BUCKET }

/-- The entry value `calloc` plus the constructor loop produce: an all-zero
key buffer, length 0, null value. -/
def zeroEntry : HT_ENTRY_T :=
  { k := List.replicate HT_MAX_KEY_LEN 0, k_len := 0, v := none }

/-- `table->index[i]`.  All reads performed by the code are in bounds in any
defined execution; the default is the calloc pattern. -/
def bucketAt (t : HT_T) (i : Nat) : HT_BUCKET_T := t.index.getD i emptyBucket

/-- `table->values[i]`. -/
def entryAt (t : HT_T) (i : Nat) : HT_ENTRY_T := t.values.getD i zeroEntry

/-- libc `strncmp a b n` on the byte-list rendering of C strings: compare at
most `n` bytes, stopping at the first difference or at a zero byte; running
off the end of a list is reading the string's terminator (byte 0). -/
def strncmp : List Nat → List Nat → Nat → Int
  | _, _, 0 => 0
  | [], [], _ + 1 => 0
  | [], y :: _, _ + 1 => 0 - (y : Int)
  | x :: _, [], _ + 1 => (x : Int)
  | x :: a, y :: b, n + 1 =>
      if x = y then (if x = 0 then 0 else strncmp a b n) else (x : Int) - (y : Int)

/-- libc `strncpy dst src n` restricted to what the code uses: writes exactly
the `n` buffer positions `0..n-1`; position `i` receives byte `i` of the
source string (its zero padding once the source is exhausted).  Positions at
or past `dst.length` would be out-of-bounds writes and do not land in the
buffer. -/
def strncpyList (dst src : List Nat) (n : Nat) : List Nat :=
  (List.range n).foldl (fun b i => b.set i (src.getD i 0)) dst

/-- The loop of `_HT_hash`: `while ((c = *key++) && n++ <= key_len) hash =
((hash << 5) + hash) + c;` with `hash` an `unsigned long`.  `rest` is the
unread tail of the key string, `n` the loop counter. -/
def hashLoop : List Nat → Nat → Nat → Nat → Nat
  | [], _, _, hash => hash
  | c :: rest, n, key_len, hash =>
      if c ≠ 0 ∧ n ≤ key_len then
        hashLoop rest (n + 1) key_len ((((hash <<< 5) + hash) + c) % UL)
      else hash

/-- `_HT_hash`: DJB2 except that its loop also consumes the byte at index
`key_len` (condition `n++ <= key_len`). -/
def _HT_hash (key : List Nat) (key_len : Nat) : Nat :=
  hashLoop key 0 key_len 5381

/-- `_HT_calc_expansion`: `(size_t)(load_factor * capacity)` at the default
load factor 0.75, exact for the capacities that occur (multiples of 4). -/
def _HT_calc_expansion (capacity : Nat) : Nat := capacity * 3 / 4

/-- `_HT_round_up`: the five-shift bit smear.  `v--` is the `size_t`
decrement; the function is only ever called with `v ≥ 16`, where `Nat`
truncation agrees with it. -/
def _HT_round_up (v : Nat) : Nat :=
  let v1 := v - 1
  let v2 := v1 ||| (v1 >>> 1)
  let v3 := v2 ||| (v2 >>> 2)
  let v4 := v3 ||| (v3 >>> 4)
  let v5 := v4 ||| (v4 >>> 8)
  let v6 := v5 ||| (v5 >>> 16)
  v6 + 1

/-- `#define HT_CALC_LOC(ht, hashcode) (hashcode & (ht->cap - 1))`. -/
def HT_CALC_LOC (t : HT_T) (hashcode : Nat) : Nat := hashcode &&& (t.cap - 1)

/-- `HT_new_ex` at the default strategies (hence `HT_new`), with allocation
assumed to succeed: clamp the requested capacity, round up to a power of two,
allocate both arrays in their calloc-plus-initialisation state. -/
def HT_new (requested_capacity : Nat) : HT_T :=
  let rc1 := if requested_capacity < HT_DEFAULT_CAPACITY then HT_DEFAULT_CAPACITY
             else requested_capacity
  let rc2 := if rc1 > HT_MAX_CAPACITY then HT_MAX_CAPACITY else rc1
  let capacity := _HT_round_up rc2
  { index := List.replicate capacity emptyBucket
    values := List.replicate capacity zeroEntry
    n := 0
    cap := capacity
    expand := _HT_calc_expansion capacity
    max_probe := 0
    ins_loc := 0 }

/-- The insert arm of `HT_put`'s probe loop (the `b->state != HT_BUCKET_OCCUPIED`
branch), at bucket position `index_loc` and probe distance `probe_len`:
choose the entries slot (post-incremented `ins_loc` on EMPTY, the tombstone's
`loc` on DELETED), write the entry (`k_len`, `v`, `strncpy`, the terminator
store at `k[key_len + 1]`), stamp the bucket, update `max_probe`, increment
`n`. -/
def putInsert (t : HT_T) (key : List Nat) (key_len : Nat) (value : Option Nat)
    (hashcode index_loc probe_len : Nat) : HT_T :=
  let b := bucketAt t index_loc
  let insLoc := if b.state = HT_EMPTY_BUCKET then t.ins_loc else b.loc
  let t1 := if b.state = HT_EMPTY_BUCKET then { t with ins_loc := t.ins_loc + 1 } else t
  let e0 := entryAt t1 insLoc
  let e1 : HT_ENTRY_T :=
    { k := (strncpyList e0.k key key_len).set (key_len + 1) 0
      k_len := key_len
      v := value }
  let t2 := { t1 with values := t1.values.set insLoc e1 }
  let b1 : HT_BUCKET_T := { hashcode := hashcode, loc := insLoc, state := HT_BUCKET_OCCUPIED }
  let t3 := { t2 with index := t2.index.set index_loc b1 }
  let t4 := if probe_len > t3.max_probe then { t3 with max_probe := probe_len } else t3
  { t4 with n := t4.n + 1 }

/-- The probe loop of `HT_put`: `for (probe_len = 0, ...; probe_len <= cap;
index_loc = HT_CALC_LOC(table, hashcode + (++probe_len)))`.  `fuel` is the
number of loop iterations still allowed (`cap + 1` at entry); exhausting it
is the fall-through `return NULL`. -/
def putLoop (key : List Nat) (key_len : Nat) (value : Option Nat) (hashcode : Nat)
    (t : HT_T) (probe_len : Nat) : Nat → HT_T × Option (Option Nat)
  | 0 => (t, none)
  | fuel + 1 =>
      let index_loc := HT_CALC_LOC t (hashcode + probe_len)
      let b := bucketAt t index_loc
      if b.state = HT_BUCKET_OCCUPIED ∧ b.hashcode = hashcode then
        let e := entryAt t b.loc
        if e.k_len = key_len ∧ strncmp key e.k key_len = 0 then
          ({ t with values := t.values.set b.loc { e with v := value } }, some value)
        else putLoop key key_len value hashcode t (probe_len + 1) fuel
      else if b.state ≠ HT_BUCKET_OCCUPIED then
        (putInsert t key key_len value hashcode index_loc probe_len, some value)
      else putLoop key key_len value hashcode t (probe_len + 1) fuel

/-- The inner probe loop of `_HT_expand`'s index rebuild: place the old bucket
record `b` verbatim at the first non-OCCUPIED slot of the new index on the
path of its cached hash, updating `max_probe`.  Exhausted fuel is the
`if (!added) printf(...)` diagnostic path, which drops the record. -/
def expandProbe (b : HT_BUCKET_T) (hashcode : Nat) (t : HT_T) (probe_len : Nat) :
    Nat → HT_T
  | 0 => t
  | fuel + 1 =>
      let index_loc := HT_CALC_LOC t (hashcode + probe_len)
      let nb := bucketAt t index_loc
      if nb.state ≠ HT_BUCKET_OCCUPIED then
        let t1 := { t with index := t.index.set index_loc b }
        if probe_len > t1.max_probe then { t1 with max_probe := probe_len } else t1
      else expandProbe b hashcode t (probe_len + 1) fuel

/-- `_HT_expand`: allocate fresh arrays of doubled capacity (`allocOk = false`
is a `calloc` failure, which in the C code exits before mutating the table),
install them together with the new `cap`, `expand` and reset `max_probe`,
copy the old entries by position, then re-insert every OCCUPIED old bucket
into the new index. -/
def _HT_expand (t : HT_T) (allocOk : Bool) : Option HT_T :=
  if allocOk = false then none
  else
    let existing_capacity := t.cap
    let existing_index := t.index
    let existing_values := t.values
    let capacity := _HT_round_up (t.cap * 2)
    let index0 : List HT_BUCKET_T := List.replicate capacity emptyBucket
    let values0 : List HT_ENTRY_T := List.replicate capacity zeroEntry
    let values1 := (List.range existing_capacity).foldl
      (fun vs i => vs.set i (existing_values.getD i zeroEntry)) values0
    let t1 : HT_T :=
      { index := index0
        values := values1
        n := t.n
        cap := capacity
        expand := _HT_calc_expansion capacity
        max_probe := 0
        ins_loc := t.ins_loc }
    some ((List.range existing_capacity).foldl
      (fun tAcc i =>
        let existing_b := existing_index.getD i emptyBucket
        if existing_b.state = HT_BUCKET_OCCUPIED then
          expandProbe existing_b existing_b.hashcode tAcc 0 (tAcc.cap + 1)
        else tAcc)
      t1)

/-- `HT_put` (the `table == NULL` / `key == NULL` guards have no counterpart
on total values; `allocOk` is the allocation oracle for a triggered resize).
Returns the updated table plus `some value` on success, `none` for the
`return NULL` failure exits. -/
def HT_put (t : HT_T) (key : List Nat) (key_len : Nat) (value : Option Nat)
    (allocOk : Bool) : HT_T × Option (Option Nat) :=
  if key_len > HT_MAX_KEY_LEN - 1 then (t, none)
  else
    let expanded :=
      if t.n > t.expand ∨ t.n = t.cap ∨ t.ins_loc = t.cap then _HT_expand t allocOk
      else some t
    match expanded with
    | none => (t, none)
    | some t1 =>
        let hashcode := _HT_hash key key_len
        putLoop key key_len value hashcode t1 0 (t1.cap + 1)

/-- The probe loop of `HT_get` (`probe_len <= max_probe`; EMPTY terminates
with NULL, a hash-and-key match returns the stored value). -/
def getLoop (key : List Nat) (key_len hashcode : Nat) (t : HT_T) (probe_len : Nat) :
    Nat → Option Nat
  | 0 => none
  | fuel + 1 =>
      let b := bucketAt t (HT_CALC_LOC t (hashcode + probe_len))
      if b.state = HT_BUCKET_OCCUPIED ∧ b.hashcode = hashcode then
        let e := entryAt t b.loc
        if e.k_len = key_len ∧ strncmp key e.k key_len = 0 then e.v
        else getLoop key key_len hashcode t (probe_len + 1) fuel
      else if b.state = HT_EMPTY_BUCKET then none
      else getLoop key key_len hashcode t (probe_len + 1) fuel

/-- `HT_get`. -/
def HT_get (t : HT_T) (key : List Nat) (key_len : Nat) : Option Nat :=
  if key_len > HT_MAX_KEY_LEN - 1 then none
  else getLoop key key_len (_HT_hash key key_len) t 0 (t.max_probe + 1)

/-- The probe loop of `HT_exists` (identical geometry to `HT_get`, boolean
result; C returns the ints 1/0). -/
def existsLoop (key : List Nat) (key_len hashcode : Nat) (t : HT_T) (probe_len : Nat) :
    Nat → Bool
  | 0 => false
  | fuel + 1 =>
      let b := bucketAt t (HT_CALC_LOC t (hashcode + probe_len))
      if b.state = HT_BUCKET_OCCUPIED ∧ b.hashcode = hashcode then
        let e := entryAt t b.loc
        if e.k_len = key_len ∧ strncmp key e.k key_len = 0 then true
        else existsLoop key key_len hashcode t (probe_len + 1) fuel
      else if b.state = HT_EMPTY_BUCKET then false
      else existsLoop key key_len hashcode t (probe_len + 1) fuel

/-- `HT_exists`. -/
def HT_exists (t : HT_T) (key : List Nat) (key_len : Nat) : Bool :=
  if key_len > HT_MAX_KEY_LEN - 1 then false
  else existsLoop key key_len (_HT_hash key key_len) t 0 (t.max_probe + 1)

/-- The probe loop of `HT_remove`: on a match capture the value, clear the
entry (`k[0] = 0`, `k_len = 0`, `v = NULL`), turn the bucket into a tombstone
(state DELETED, hashcode 0, `loc` preserved), decrement `n`. -/
def removeLoop (key : List Nat) (key_len hashcode : Nat) (t : HT_T) (probe_len : Nat) :
    Nat → HT_T × Option (Option Nat)
  | 0 => (t, none)
  | fuel + 1 =>
      let index_loc := HT_CALC_LOC t (hashcode + probe_len)
      let b := bucketAt t index_loc
      if b.state = HT_BUCKET_OCCUPIED ∧ b.hashcode = hashcode then
        let e := entryAt t b.loc
        if e.k_len = key_len ∧ strncmp key e.k key_len = 0 then
          let found_value := e.v
          let e1 : HT_ENTRY_T := { k := e.k.set 0 0, k_len := 0, v := none }
          let t1 := { t with values := t.values.set b.loc e1 }
          let b1 : HT_BUCKET_T := { b with state := HT_DELETED_BUCKET, hashcode := 0 }
          let t2 := { t1 with index := t1.index.set index_loc b1 }
          ({ t2 with n := t2.n - 1 }, some found_value)
        else removeLoop key key_len hashcode t (probe_len + 1) fuel
      else if b.state = HT_EMPTY_BUCKET then (t, none)
      else removeLoop key key_len hashcode t (probe_len + 1) fuel

/-- `HT_remove`.  Second component: `some v` when a binding was found and
removed (`v` its stored value handle, possibly null), `none` when not found. -/
def HT_remove (t : HT_T) (key : List Nat) (key_len : Nat) : HT_T × Option (Option Nat) :=
  if key_len > HT_MAX_KEY_LEN - 1 then (t, none)
  else removeLoop key key_len (_HT_hash key key_len) t 0 (t.max_probe + 1)

/-- The number of deallocator invocations `HT_free` performs: one per
OCCUPIED index bucket whose referenced value handle is non-null. -/
def HT_free_dealloc_count (t : HT_T) : Nat :=
  (List.range t.cap).foldl
    (fun acc i =>
      let b := bucketAt t i
      if b.state = HT_BUCKET_OCCUPIED ∧ (entryAt t b.loc).v ≠ none then acc + 1
      else acc)
    0

/-- The indices into the fixed `char k[HT_MAX_KEY_LEN]` buffer written by the
insert path of `HT_put` for an accepted key length: `strncpy(e->k, key,
key_len)` writes indices `0..key_len-1`, then `e->k[key_len + 1] = '\0'`
writes index `key_len + 1`. -/
def putKeyWriteIdx (key_len : Nat) : List Nat :=
  List.range key_len ++ [key_len + 1]

/-- A byte list that renders a C string: nonzero bytes below 256. -/
def validKey (key : List Nat) : Prop := ∀ c ∈ key, 0 < c ∧ c < 256

instance (key : List Nat) : Decidable (validKey key) := by
  unfold validKey; infer_instance

/-- One mutating API call, for describing operation sequences. -/
inductive Op where
  | put (key : List Nat) (key_len : Nat) (value : Option Nat) (allocOk : Bool)
  | remove (key : List Nat) (key_len : Nat)
  deriving DecidableEq

/-- Apply one call to the table (dropping the returned value). -/
def applyOp (t : HT_T) : Op → HT_T
  | Op.put key key_len value allocOk => (HT_put t key key_len value allocOk).1
  | Op.remove key key_len => (HT_remove t key key_len).1

/-- Apply a sequence of calls left to right. -/
def applyOps (t : HT_T) (ops : List Op) : HT_T :=
  ops.foldl applyOp t

/-- The key of an `Op` is a well-formed C string. -/
def validOp : Op → Prop
  | Op.put key _ _ _ => validKey key
  | Op.remove key _ => validKey key

instance (op : Op) : Decidable (validOp op) := by
  cases op <;> (unfold validOp; infer_instance)

/-- Table states reachable through the public API: a fresh `HT_new` table
followed by any sequence of `HT_put` / `HT_remove` calls (with C-string
keys).  `HT_get` and `HT_exists` do not mutate the table, so interleaving
them does not change the reachable set. -/
inductive Reach : HT_T → Prop where
  | new (requested_capacity : Nat) : Reach (HT_new requested_capacity)
  | put (t : HT_T) (key : List Nat) (key_len : Nat) (value : Option Nat)
      (allocOk : Bool) (ht : Reach t) (hk : validKey key) :
      Reach (HT_put t key key_len value allocOk).1
  | remove (t : HT_T) (key : List Nat) (key_len : Nat)
      (ht : Reach t) (hk : validKey key) :
      Reach (HT_remove t key key_len).1

/-- The hash update written by the spec: `h ← h·33 + byte`, stopping at the
first zero byte, over a given list of bytes. -/
def djb2Go : List Nat → Nat → Nat
  | [], hash => hash
  | c :: rest, hash => if c = 0 then hash else djb2Go rest ((hash * 33 + c) % UL)

/-- Modelled from the spec's words for comparison with `_HT_hash` ("initial
state 5381; for each of the first `key_len` bytes (stopping early on a zero
byte), update `h ← h·33 + byte`"). -/
def djb2_spec (key : List Nat) (key_len : Nat) : Nat :=
  djb2Go (key.take key_len) 5381

/-- The canonical content of the fixed key buffer after a fresh-slot insert
of `key`: the key's bytes followed by zero padding. -/
def storedKey (key : List Nat) : List Nat :=
  key ++ List.replicate (HT_MAX_KEY_LEN - key.length) 0

/-- The probe distance of index position `p` from the home slot of hash `h`
in a table of capacity `cap`: the number of linear steps after which the
probe sequence of `h` reaches `p`. -/
def probeDist (cap h p : Nat) : Nat := (p + cap - h % cap) % cap

/-- The number of OCCUPIED buckets of the index array. -/
def occCount (t : HT_T) : Nat :=
  t.index.countP (fun b => b.state = HT_BUCKET_OCCUPIED)

/-- The five-stage bit smear of `_HT_round_up`, on the already-decremented
argument. -/
def smear16 (x : Nat) : Nat :=
  let v2 := x ||| (x >>> 1)
  let v3 := v2 ||| (v2 >>> 2)
  let v4 := v3 ||| (v3 >>> 4)
  let v5 := v4 ||| (v4 >>> 8)
  v5 ||| (v5 >>> 16)

/-- The bucket the probe loops read at probe step `e` for hash `h` (the
loops' `index_loc = HT_CALC_LOC(table, hashcode + probe_len)`). -/
def probeBucket (t : HT_T) (h e : Nat) : HT_BUCKET_T :=
  bucketAt t (HT_CALC_LOC t (h + e))

/-- The probe loops' match condition at step `e`: an OCCUPIED bucket caching
hash `h` whose referenced entry has the queried length and compares equal
over it. -/
def hitAt (t : HT_T) (key : List Nat) (key_len h e : Nat) : Prop :=
  (probeBucket t h e).state = HT_BUCKET_OCCUPIED ∧
  (probeBucket t h e).hashcode = h ∧
  (entryAt t (probeBucket t h e).loc).k_len = key_len ∧
  strncmp key (entryAt t (probeBucket t h e).loc).k key_len = 0

instance (t : HT_T) (key : List Nat) (key_len h e : Nat) :
    Decidable (hitAt t key key_len h e) := by
  unfold hitAt
  infer_instance

/-- The probe step `e` reads an EMPTY bucket (the lookup loops' negative
exit). -/
def emptyAtStep (t : HT_T) (h e : Nat) : Prop :=
  (probeBucket t h e).state = HT_EMPTY_BUCKET

instance (t : HT_T) (h e : Nat) : Decidable (emptyAtStep t h e) := by
  unfold emptyAtStep
  infer_instance

/-- The probe step `e` reads a non-OCCUPIED bucket (the insert arm of
`HT_put`). -/
def freeAtStep (t : HT_T) (h e : Nat) : Prop :=
  (probeBucket t h e).state ≠ HT_BUCKET_OCCUPIED

instance (t : HT_T) (h e : Nat) : Decidable (freeAtStep t h e) := by
  unfold freeAtStep
  infer_instance

/-- `pathOK t p`: position `p`'s bucket is reachable by the lookup loops —
its probe distance from the home slot of its cached hash is within
`max_probe`, and every strictly earlier position on that probe path is
OCCUPIED (so no lookup terminates early on an EMPTY bucket). -/
def pathOK (t : HT_T) (p : Nat) : Prop :=
  probeDist t.cap (bucketAt t p).hashcode p ≤ t.max_probe ∧
  ∀ e, e < probeDist t.cap (bucketAt t p).hashcode p →
    (bucketAt t (((bucketAt t p).hashcode + e) % t.cap)).state = HT_BUCKET_OCCUPIED

/-- The structural representation invariant maintained by every API
operation. -/
structure WF (t : HT_T) : Prop where
  ilen : t.index.length = t.cap
  vlen : t.values.length = t.cap
  cap_pow : ∃ k, 4 ≤ k ∧ t.cap = 2 ^ k
  exp_eq : t.expand = _HT_calc_expansion t.cap
  ins_le : t.ins_loc ≤ t.cap
  n_occ : t.n = occCount t
  states : ∀ i, i < t.cap → (bucketAt t i).state = HT_BUCKET_OCCUPIED ∨
      (bucketAt t i).state = HT_EMPTY_BUCKET ∨ (bucketAt t i).state = HT_DELETED_BUCKET
  loc_lt : ∀ i, i < t.cap → (bucketAt t i).state ≠ HT_EMPTY_BUCKET →
      (bucketAt t i).loc < t.ins_loc
  loc_inj : ∀ i j, i < t.cap → j < t.cap → i ≠ j →
      (bucketAt t i).state ≠ HT_EMPTY_BUCKET → (bucketAt t j).state ≠ HT_EMPTY_BUCKET →
      (bucketAt t i).loc ≠ (bucketAt t j).loc
  kbuf : ∀ j, j < t.cap → (entryAt t j).k.length = HT_MAX_KEY_LEN

/-- Index position `i` holds a binding the lookup loops match for
`(key, key_len)`: OCCUPIED, caching the key's hash, with the queried length
and comparator-equal bytes. -/
def matchesKeyAt (t : HT_T) (key : List Nat) (key_len : Nat) (i : Nat) : Prop :=
  (bucketAt t i).state = HT_BUCKET_OCCUPIED ∧
  (bucketAt t i).hashcode = _HT_hash key key_len ∧
  (entryAt t (bucketAt t i).loc).k_len = key_len ∧
  strncmp key (entryAt t (bucketAt t i).loc).k key_len = 0

instance (t : HT_T) (key : List Nat) (key_len i : Nat) :
    Decidable (matchesKeyAt t key key_len i) := by
  unfold matchesKeyAt
  infer_instance

/-- Position `p` holds the binding of `key` to value `v` in canonical form
(fresh-slot stored buffer). -/
def bindsAt (t : HT_T) (key : List Nat) (v : Option Nat) (p : Nat) : Prop :=
  (bucketAt t p).state = HT_BUCKET_OCCUPIED ∧
  (bucketAt t p).hashcode = _HT_hash key key.length ∧
  entryAt t (bucketAt t p).loc = { k := storedKey key, k_len := key.length, v := v }

/-- The invariant of a table built from `HT_new` by the puts of `kvs`
(pairwise-distinct valid keys, no removes): no tombstones, fresh entry slots
above `ins_loc` still zeroed, `n = ins_loc = ` number of puts, every pair of
`kvs` bound at a reachable bucket, every OCCUPIED bucket the binding of some
pair. -/
structure PutInv (t : HT_T) (kvs : List (List Nat × Option Nat)) : Prop where
  ilen : t.index.length = t.cap
  vlen : t.values.length = t.cap
  cap_pow : ∃ k, 4 ≤ k ∧ t.cap = 2 ^ k
  exp_eq : t.expand = _HT_calc_expansion t.cap
  n_eq : t.n = kvs.length
  ins_eq : t.ins_loc = kvs.length
  n_le : t.n ≤ t.expand + 1
  states : ∀ i, i < t.cap → (bucketAt t i).state = HT_BUCKET_OCCUPIED ∨
      (bucketAt t i).state = HT_EMPTY_BUCKET
  fresh : ∀ j, t.ins_loc ≤ j → entryAt t j = zeroEntry
  locs : ∀ i, i < t.cap → (bucketAt t i).state = HT_BUCKET_OCCUPIED →
      (bucketAt t i).loc < t.ins_loc
  loc_inj : ∀ i j, i < t.cap → j < t.cap → i ≠ j →
      (bucketAt t i).state = HT_BUCKET_OCCUPIED →
      (bucketAt t j).state = HT_BUCKET_OCCUPIED →
      (bucketAt t i).loc ≠ (bucketAt t j).loc
  complete : ∀ kv ∈ kvs, ∃ p, p < t.cap ∧ bindsAt t kv.1 kv.2 p ∧ pathOK t p
  sound : ∀ p, p < t.cap → (bucketAt t p).state = HT_BUCKET_OCCUPIED →
      ∃ kv ∈ kvs, bindsAt t kv.1 kv.2 p

/-- The intermediate state of `_HT_expand`'s index-rebuild loop after the
first `j` old buckets have been processed: the header fields are those of
the freshly allocated table `base`, every bucket is OCCUPIED or EMPTY,
OCCUPIED buckets are verbatim copies of distinct already-processed old
OCCUPIED buckets, each processed old OCCUPIED bucket has been placed at a
reachable position, and the OCCUPIED count equals the number of processed
old OCCUPIED buckets. -/
structure RebuildInv (oldIdx : List HT_BUCKET_T) (base : HT_T) (j : Nat)
    (tAcc : HT_T) : Prop where
  vals : tAcc.values = base.values
  nn : tAcc.n = base.n
  ins : tAcc.ins_loc = base.ins_loc
  expd : tAcc.expand = base.expand
  capp : tAcc.cap = base.cap
  ilen : tAcc.index.length = base.cap
  states : ∀ p, p < base.cap → (bucketAt tAcc p).state = HT_BUCKET_OCCUPIED ∨
      (bucketAt tAcc p).state = HT_EMPTY_BUCKET
  occ_from : ∀ p, p < base.cap → (bucketAt tAcc p).state = HT_BUCKET_OCCUPIED →
      ∃ i, i < j ∧ (oldIdx.getD i emptyBucket).state = HT_BUCKET_OCCUPIED ∧
        bucketAt tAcc p = oldIdx.getD i emptyBucket
  placed : ∀ i, i < j → (oldIdx.getD i emptyBucket).state = HT_BUCKET_OCCUPIED →
      ∃ p, p < base.cap ∧ bucketAt tAcc p = oldIdx.getD i emptyBucket ∧ pathOK tAcc p
  occ_card : occCount tAcc =
      (List.range j).countP (fun i => (oldIdx.getD i emptyBucket).state = HT_BUCKET_OCCUPIED)
  linj : ∀ p p2, p < base.cap → p2 < base.cap → p ≠ p2 →
      (bucketAt tAcc p).state = HT_BUCKET_OCCUPIED →
      (bucketAt tAcc p2).state = HT_BUCKET_OCCUPIED →
      (bucketAt tAcc p).loc ≠ (bucketAt tAcc p2).loc

/-- The freshly allocated table `_HT_expand` installs before rebuilding the
index: doubled rounded capacity, all-EMPTY index, entries copied by position
into a zeroed array, `max_probe` reset, `n` and `ins_loc` preserved. -/
def expandBase (t : HT_T) : HT_T :=
  { index := List.replicate (_HT_round_up (t.cap * 2)) emptyBucket
    values := (List.range t.cap).foldl
      (fun vs i => vs.set i (t.values.getD i zeroEntry))
      (List.replicate (_HT_round_up (t.cap * 2)) zeroEntry)
    n := t.n
    cap := _HT_round_up (t.cap * 2)
    expand := _HT_calc_expansion (_HT_round_up (t.cap * 2))
    max_probe := 0
    ins_loc := t.ins_loc }

/-- The table of the tombstone-reuse scenario just before the duplicating
put: key `97` inserted and removed (tombstone at its home slot 6), key `113`
(same home slot) sitting one probe step later at slot 7. -/
def tblPre : HT_T := applyOps (HT_new 16)
  [Op.put [97] 1 (some 10) true,
   Op.put [113] 1 (some 20) true,
   Op.remove [97] 1]

/-- Fold a list of `(key, value)` pairs into the table through `HT_put`,
with `key_len` the key's byte length and allocation succeeding. -/
def putAll (t : HT_T) (kvs : List (List Nat × Option Nat)) : HT_T :=
  kvs.foldl (fun tAcc kv => (HT_put tAcc kv.1 kv.1.length kv.2 true).1) t

/-- Driver scenario for tombstone-reuse duplication: two 1-byte keys `97`
and `113` share the home slot `6` of a 16-bucket table; key `97` is inserted
and removed (tombstone at slot 6), key `113` sits at slot 7, and a second
put of `113` lands on the tombstone. -/
def opsDup : List Op :=
  [Op.put [97] 1 (some 10) true,
   Op.put [113] 1 (some 20) true,
   Op.remove [97] 1,
   Op.put [113] 1 (some 30) true]

/-- The table after `opsDup`: key `113` occupies two buckets. -/
def tblDup : HT_T := applyOps (HT_new 16) opsDup

/-- Driver scenario exhausting the EMPTY buckets of a 16-bucket table while
`n` stays small: insert the 1-byte keys `97..108` (home slots 6..15, 0, 1),
remove all of them (12 tombstones), then insert keys `109..112` (home slots
2..5), consuming the last four EMPTY buckets. -/
def opsChurn : List Op :=
  ((List.range 12).map (fun i => Op.put [97 + i] 1 (some i) true)) ++
  ((List.range 12).map (fun i => Op.remove [97 + i] 1)) ++
  ((List.range 4).map (fun i => Op.put [109 + i] 1 (some (100 + i)) true))

/-- The table after `opsChurn`: `n = 4 < cap = 16` and no bucket is EMPTY. -/
def tblChurn : HT_T := applyOps (HT_new 16) opsChurn

/-- A table holding the single key `"null"` (bytes `110 117 108 108`) bound
to a null value handle. -/
def tblNullVal : HT_T := (HT_put (HT_new 16) [110, 117, 108, 108] 4 none true).1

/-- A table holding the single key `97` bound to `some 5`. -/
def tblOne : HT_T := (HT_put (HT_new 16) [97] 1 (some 5) true).1

/-! ### Basic facts about the helper functions -/

theorem getD_set_self {α : Type _} {l : List α} {i : Nat} {a d : α} (h : i < l.length) :
    (l.set i a).getD i d = a := by
  simp [List.getD_eq_getElem?_getD, List.getElem?_set_self h]

theorem getD_set_ne {α : Type _} {l : List α} {i j : Nat} (h : i ≠ j) {a d : α} :
    (l.set i a).getD j d = l.getD j d := by
  simp [List.getD_eq_getElem?_getD, List.getElem?_set_ne h]

theorem HT_MAX_CAPACITY_eq : HT_MAX_CAPACITY = 2 ^ 30 := rfl

/-- With a power-of-two capacity, the location macro is reduction modulo
`cap`. -/
theorem HT_CALC_LOC_eq_mod (t : HT_T) (x k : Nat) (hcap : t.cap = 2 ^ k) :
    HT_CALC_LOC t x = x % t.cap := by
  unfold HT_CALC_LOC
  rw [hcap]
  exact Nat.and_pow_two_sub_one_eq_mod x k

theorem strncpyList_zero (dst src : List Nat) : strncpyList dst src 0 = dst := rfl

theorem strncpyList_succ (dst src : List Nat) (n : Nat) :
    strncpyList dst src (n + 1) = (strncpyList dst src n).set n (src.getD n 0) := by
  unfold strncpyList
  rw [List.range_succ, List.foldl_append]
  rfl

theorem strncpyList_length (dst src : List Nat) (n : Nat) :
    (strncpyList dst src n).length = dst.length := by
  induction n with
  | zero => rfl
  | succ n ih => rw [strncpyList_succ, List.length_set, ih]

theorem strncpyList_getElem? (dst src : List Nat) (n j : Nat) :
    (strncpyList dst src n)[j]? =
      if j < n ∧ j < dst.length then some (src.getD j 0) else dst[j]? := by
  induction n with
  | zero => simp [strncpyList_zero]
  | succ n ih =>
      rw [strncpyList_succ, List.getElem?_set, strncpyList_length, ih]
      by_cases hj : n = j
      · subst hj
        by_cases hl : n < dst.length
        · rw [if_pos rfl, if_pos hl, if_pos ⟨by omega, hl⟩]
        · rw [if_pos rfl, if_neg hl, if_neg (by omega), List.getElem?_eq_none (by omega)]
      · rw [if_neg hj]
        by_cases hjn : j < n
        · by_cases hl : j < dst.length
          · rw [if_pos ⟨hjn, hl⟩, if_pos ⟨by omega, hl⟩]
          · rw [if_neg (by omega), if_neg (by omega)]
        · rw [if_neg (by omega), if_neg (by omega)]

theorem storedKey_length (key : List Nat) (h : key.length ≤ HT_MAX_KEY_LEN) :
    (storedKey key).length = HT_MAX_KEY_LEN := by
  simp [storedKey]
  omega

theorem storedKey_getElem? (key : List Nat) (h : key.length ≤ HT_MAX_KEY_LEN) (j : Nat) :
    (storedKey key)[j]? =
      if j < key.length then key[j]? else if j < HT_MAX_KEY_LEN then some 0 else none := by
  unfold storedKey
  by_cases hj : j < key.length
  · rw [List.getElem?_append_left hj]
    simp [hj]
  · rw [List.getElem?_append_right (by omega)]
    rw [List.getElem?_replicate]
    by_cases hj2 : j < HT_MAX_KEY_LEN <;> simp [hj, hj2] <;> omega

/-- The two buffer writes of a fresh-slot insert produce exactly
`storedKey key` (the terminator store at `key_len + 1` either rewrites a
padding zero or, at `key_len = HT_MAX_KEY_LEN - 1`, misses the buffer). -/
theorem storedBuf_eq (key : List Nat) (h : key.length ≤ HT_MAX_KEY_LEN - 1) :
    (strncpyList zeroEntry.k key key.length).set (key.length + 1) 0 = storedKey key := by
  have hzlen : zeroEntry.k.length = HT_MAX_KEY_LEN := by simp [zeroEntry]
  apply List.ext_getElem?
  intro j
  rw [List.getElem?_set, strncpyList_getElem?, strncpyList_length, hzlen,
    storedKey_getElem? key (by omega)]
  have hget : ∀ i, zeroEntry.k[i]? = if i < HT_MAX_KEY_LEN then some 0 else none := by
    intro i
    simp [zeroEntry, List.getElem?_replicate]
  rw [hget j]
  by_cases h1 : key.length + 1 = j
  · subst h1
    have : ¬(key.length + 1 < key.length) := by omega
    by_cases h2 : key.length + 1 < HT_MAX_KEY_LEN <;> simp [h2, this]
  · by_cases h2 : j < key.length
    · have : some (key.getD j 0) = key[j]? := by
        rw [List.getD_eq_getElem?_getD, List.getElem?_eq_getElem h2]
        rfl
      simp [h1, h2, (by omega : j < HT_MAX_KEY_LEN), this]
    · simp [h1, h2]

theorem strncmp_zero_len (a b : List Nat) : strncmp a b 0 = 0 := by
  cases a <;> cases b <;> rfl

/-- For C-string keys of equal declared length, the comparator over that
length reports equality exactly on equal byte lists (padding after the
stored key is never reached). -/
theorem strncmp_eq_zero_iff (a : List Nat) : ∀ (b zs : List Nat), validKey a → validKey b →
    a.length = b.length → (strncmp a (b ++ zs) a.length = 0 ↔ a = b) := by
  induction a with
  | nil =>
      intro b zs _ _ hlen
      cases b with
      | nil => simp [strncmp_zero_len]
      | cons y b => simp at hlen
  | cons x a ih =>
      intro b zs ha hb hlen
      cases b with
      | nil => simp at hlen
      | cons y b =>
          have hx : 0 < x ∧ x < 256 := ha x (by simp)
          have hxa : validKey a := fun c hc => ha c (by simp [hc])
          have hyb : validKey b := fun c hc => hb c (by simp [hc])
          have hlen' : a.length = b.length := by simpa using hlen
          show strncmp (x :: a) (y :: (b ++ zs)) (a.length + 1) = 0 ↔ _
          rw [strncmp]
          by_cases hxy : x = y
          · subst hxy
            rw [if_pos rfl, if_neg (by omega : ¬x = 0), ih b zs hxa hyb hlen']
            simp
          · rw [if_neg hxy]
            constructor
            · intro hz
              exfalso
              have hxyz : (x : Int) = (y : Int) := by omega
              exact hxy (by exact_mod_cast hxyz)
            · intro hz
              simp only [List.cons.injEq] at hz
              exact absurd hz.1 hxy

/-- The hasher's loop is DJB2 (with 64-bit wrap) over the first
`key_len + 1 - n` unread bytes, stopping at a zero byte. -/
theorem hashLoop_eq_djb2Go (key_len : Nat) : ∀ (key : List Nat) (n hash : Nat),
    hashLoop key n key_len hash = djb2Go (key.take (key_len + 1 - n)) hash := by
  intro key
  induction key with
  | nil => intro n hash; simp [hashLoop, djb2Go]
  | cons c rest ih =>
      intro n hash
      rw [hashLoop]
      by_cases hc : c = 0
      · subst hc
        simp only [ne_eq, not_true_eq_false, false_and, if_false]
        by_cases hn : key_len + 1 - n = 0
        · rw [hn]; simp [djb2Go]
        · obtain ⟨m, hm⟩ : ∃ m, key_len + 1 - n = m + 1 := ⟨key_len - n, by omega⟩
          rw [hm, List.take_succ_cons, djb2Go]
          simp
      · by_cases hn : n ≤ key_len
        · rw [if_pos ⟨hc, hn⟩]
          obtain ⟨m, hm⟩ : ∃ m, key_len + 1 - n = m + 1 := ⟨key_len - n, by omega⟩
          rw [hm, List.take_succ_cons, djb2Go, if_neg hc, ih (n + 1)]
          have harith : ((hash <<< 5) + hash) + c = hash * 33 + c := by
            rw [Nat.shiftLeft_eq]
            ring
          rw [harith]
          have : key_len + 1 - (n + 1) = m := by omega
          rw [this]
        · rw [if_neg (by tauto)]
          have : key_len + 1 - n = 0 := by omega
          rw [this]
          simp [djb2Go]

/-- `_HT_hash` is DJB2 over the first `key_len + 1` bytes of the key string
(one more byte than the spec's description), stopping at a zero byte. -/
theorem _HT_hash_eq_djb2 (key : List Nat) (key_len : Nat) :
    _HT_hash key key_len = djb2Go (key.take (key_len + 1)) 5381 := by
  unfold _HT_hash
  rw [hashLoop_eq_djb2Go]
  simp

/-! ### Correctness of the bit-smear round-up -/

theorem _HT_round_up_eq_smear (v : Nat) : _HT_round_up v = smear16 (v - 1) + 1 := rfl

theorem or_shift_testBit (y D : Nat) (x : Nat)
    (hy : ∀ j, y.testBit j = true ↔ ∃ d, d < D ∧ x.testBit (j + d) = true) (i : Nat) :
    (y ||| (y >>> D)).testBit i = true ↔ ∃ d, d < 2 * D ∧ x.testBit (i + d) = true := by
  rw [Nat.testBit_or, Nat.testBit_shiftRight, Bool.or_eq_true, hy i, hy (D + i)]
  constructor
  · rintro (⟨d, hd, hx⟩ | ⟨d, hd, hx⟩)
    · exact ⟨d, by omega, hx⟩
    · exact ⟨D + d, by omega, by rwa [show i + (D + d) = D + i + d by omega]⟩
  · rintro ⟨d, hd, hx⟩
    by_cases hdD : d < D
    · exact Or.inl ⟨d, hdD, hx⟩
    · exact Or.inr ⟨d - D, by omega, by rwa [show D + i + (d - D) = i + d by omega]⟩

theorem smear16_testBit (x i : Nat) :
    (smear16 x).testBit i = true ↔ ∃ d, d < 32 ∧ x.testBit (i + d) = true := by
  have h1 : ∀ j, x.testBit j = true ↔ ∃ d, d < 1 ∧ x.testBit (j + d) = true := by
    intro j
    constructor
    · intro h
      exact ⟨0, by omega, by simpa using h⟩
    · rintro ⟨d, hd, h⟩
      have hd0 : d = 0 := by omega
      subst hd0
      simpa using h
  have h2 := or_shift_testBit x 1 x h1
  have h4 := or_shift_testBit _ 2 x h2
  have h8 := or_shift_testBit _ 4 x h4
  have h16 := or_shift_testBit _ 8 x h8
  have h32 := or_shift_testBit _ 16 x h16
  have hfin := h32 i
  have hb : 2 * (2 * (2 * (2 * (2 * 1)))) = 32 := by norm_num
  rw [hb] at hfin
  exact hfin

theorem smear16_two_pow_sub_one (k : Nat) : smear16 (2 ^ k - 1) = 2 ^ k - 1 := by
  apply Nat.eq_of_testBit_eq
  intro i
  rw [Nat.testBit_two_pow_sub_one]
  by_cases hi : i < k
  · have ht : (smear16 (2 ^ k - 1)).testBit i = true :=
      (smear16_testBit _ i).2 ⟨0, by omega, by
        rw [Nat.testBit_two_pow_sub_one]
        simpa using hi⟩
    rw [ht]
    simp [hi]
  · have hf : ¬(smear16 (2 ^ k - 1)).testBit i = true := by
      rw [smear16_testBit]
      rintro ⟨d, hd, hbit⟩
      rw [Nat.testBit_two_pow_sub_one] at hbit
      simp at hbit
      omega
    simp only [Bool.not_eq_true] at hf
    rw [hf]
    simp [hi]

theorem testBit_size_sub_one (x : Nat) (hx : 0 < x) : x.testBit (x.size - 1) = true := by
  have hsp : 0 < x.size := Nat.size_pos.2 hx
  have h1 : 2 ^ (x.size - 1) ≤ x := Nat.lt_size.1 (by omega)
  have h2 : x < 2 ^ x.size := Nat.lt_size_self x
  have hpow : (0:Nat) < 2 ^ (x.size - 1) := Nat.pos_pow_of_pos _ (by norm_num)
  rw [Nat.testBit_to_div_mod]
  have hd1 : 1 ≤ x / 2 ^ (x.size - 1) := (Nat.le_div_iff_mul_le hpow).2 (by omega)
  have hd2 : x / 2 ^ (x.size - 1) < 2 := by
    rw [Nat.div_lt_iff_lt_mul hpow]
    have hps : 2 ^ x.size = 2 ^ (x.size - 1) * 2 := by
      rw [← Nat.pow_succ]
      congr 1
      omega
    omega
  have hone : x / 2 ^ (x.size - 1) = 1 := by omega
  rw [hone]
  decide

theorem smear16_eq (x : Nat) (hx : 0 < x) (hx32 : x < 2 ^ 32) :
    smear16 x = 2 ^ x.size - 1 := by
  have hs32 : x.size ≤ 32 := Nat.size_le.2 hx32
  apply Nat.eq_of_testBit_eq
  intro i
  rw [Nat.testBit_two_pow_sub_one]
  by_cases hi : i < x.size
  · have ht : (smear16 x).testBit i = true :=
      (smear16_testBit x i).2 ⟨x.size - 1 - i, by omega, by
        rw [show i + (x.size - 1 - i) = x.size - 1 by omega]
        exact testBit_size_sub_one x hx⟩
    rw [ht]
    simp [hi]
  · have hf : ¬(smear16 x).testBit i = true := by
      rw [smear16_testBit]
      rintro ⟨d, hd, hbit⟩
      have : x < 2 ^ (i + d) := lt_of_lt_of_le (Nat.lt_size_self x)
        (Nat.pow_le_pow_right (by norm_num) (by omega))
      rw [Nat.testBit_lt_two_pow this] at hbit
      exact Bool.false_ne_true hbit
    simp only [Bool.not_eq_true] at hf
    rw [hf]
    simp [hi]

/-- `_HT_round_up` fixes every positive power of two (of any magnitude). -/
theorem round_up_two_pow (k : Nat) (hk : 1 ≤ k) : _HT_round_up (2 ^ k) = 2 ^ k := by
  rw [_HT_round_up_eq_smear, smear16_two_pow_sub_one]
  have : (0:Nat) < 2 ^ k := Nat.pos_pow_of_pos _ (by norm_num)
  omega

/-- On the clamped construction range, `_HT_round_up` returns a power of two
between `HT_DEFAULT_CAPACITY` and `HT_MAX_CAPACITY`. -/
theorem round_up_bounds (v : Nat) (h1 : 16 ≤ v) (h2 : v ≤ 2 ^ 30) :
    ∃ k, 4 ≤ k ∧ k ≤ 30 ∧ _HT_round_up v = 2 ^ k := by
  refine ⟨(v - 1).size, ?_, ?_, ?_⟩
  · have : (2:Nat) ^ 3 ≤ v - 1 := by omega
    have := Nat.lt_size.2 this
    omega
  · exact Nat.size_le.2 (by omega : v - 1 < 2 ^ 30)
  · rw [_HT_round_up_eq_smear, smear16_eq (v - 1) (by omega) (by
      have : (2:Nat) ^ 30 < 2 ^ 32 := by norm_num
      omega)]
    have : (0:Nat) < 2 ^ (v - 1).size := Nat.pos_pow_of_pos _ (by norm_num)
    omega

/-! ### Probe geometry -/

theorem probeDist_lt (cap h p : Nat) (hcap : 0 < cap) :
    probeDist cap h p < cap := Nat.mod_lt _ hcap

/-- Probing `probeDist cap h p` steps from the home slot of `h` lands on `p`. -/
theorem probe_hits (cap h p : Nat) (hcap : 0 < cap) (hp : p < cap) :
    (h + probeDist cap h p) % cap = p := by
  unfold probeDist
  rw [Nat.add_mod_mod]
  have e1 : h + (p + cap - h % cap) = cap * (h / cap + 1) + p := by
    have h2 := Nat.div_add_mod h cap
    have h3 : h % cap < cap := Nat.mod_lt _ hcap
    have e2 : cap * (h / cap + 1) = cap * (h / cap) + cap := by ring
    omega
  rw [e1, Nat.mul_add_mod, Nat.mod_eq_of_lt hp]

/-- The probe distance of the position reached after `e < cap` steps is `e`. -/
theorem probeDist_probe (cap h e : Nat) (hcap : 0 < cap) (he : e < cap) :
    probeDist cap h ((h + e) % cap) = e := by
  unfold probeDist
  have hr : h % cap < cap := Nat.mod_lt _ hcap
  rw [← Nat.mod_add_mod]
  by_cases hcase : h % cap + e < cap
  · rw [Nat.mod_eq_of_lt hcase]
    have e1 : h % cap + e + cap - h % cap = e + cap := by omega
    rw [e1, Nat.add_mod_right, Nat.mod_eq_of_lt he]
  · have hsub : (h % cap + e) % cap = h % cap + e - cap := by
      rw [Nat.mod_eq_sub_mod (by omega)]
      exact Nat.mod_eq_of_lt (by omega)
    rw [hsub]
    have e1 : h % cap + e - cap + cap - h % cap = e := by omega
    rw [e1, Nat.mod_eq_of_lt he]

/-- The position reached after a probe step is in range. -/
theorem probe_pos_lt (cap h e : Nat) (hcap : 0 < cap) : (h + e) % cap < cap :=
  Nat.mod_lt _ hcap

/-! ### Characterisation of the probe loops -/

theorem hitAt_not_empty {t : HT_T} {key : List Nat} {key_len h e : Nat}
    (hh : hitAt t key key_len h e) : ¬emptyAtStep t h e := by
  intro he
  unfold hitAt at hh
  unfold emptyAtStep at he
  rw [he] at hh
  exact absurd hh.1 (by decide)

theorem getLoop_succ_hit (key : List Nat) (key_len h : Nat) (t : HT_T) (p fuel : Nat)
    (hhit : hitAt t key key_len h p) :
    getLoop key key_len h t p (fuel + 1) = (entryAt t (probeBucket t h p).loc).v := by
  obtain ⟨h1, h2, h3, h4⟩ := hhit
  unfold probeBucket at h1 h2 h3 h4
  simp only [getLoop]
  rw [if_pos ⟨h1, h2⟩, if_pos ⟨h3, h4⟩]
  rfl

theorem getLoop_succ_skip (key : List Nat) (key_len h : Nat) (t : HT_T) (p fuel : Nat)
    (hnh : ¬hitAt t key key_len h p) (hne : ¬emptyAtStep t h p) :
    getLoop key key_len h t p (fuel + 1) = getLoop key key_len h t (p + 1) fuel := by
  unfold hitAt probeBucket at hnh
  unfold emptyAtStep probeBucket at hne
  simp only [getLoop]
  by_cases h1 : (bucketAt t (HT_CALC_LOC t (h + p))).state = HT_BUCKET_OCCUPIED ∧
      (bucketAt t (HT_CALC_LOC t (h + p))).hashcode = h
  · rw [if_pos h1, if_neg (fun hc => hnh ⟨h1.1, h1.2, hc.1, hc.2⟩)]
  · rw [if_neg h1, if_neg hne]

theorem getLoop_succ_empty (key : List Nat) (key_len h : Nat) (t : HT_T) (p fuel : Nat)
    (hne : emptyAtStep t h p) :
    getLoop key key_len h t p (fuel + 1) = none := by
  unfold emptyAtStep probeBucket at hne
  simp only [getLoop]
  have h1 : ¬((bucketAt t (HT_CALC_LOC t (h + p))).state = HT_BUCKET_OCCUPIED ∧
      (bucketAt t (HT_CALC_LOC t (h + p))).hashcode = h) := by
    rw [hne]
    rintro ⟨hc, -⟩
    exact absurd hc (by decide)
  rw [if_neg h1, if_pos hne]

/-- `getLoop` returns the value of the first match when every earlier probed
bucket neither matches nor is EMPTY. -/
theorem getLoop_found (key : List Nat) (key_len h : Nat) (t : HT_T) (d : Nat)
    (hhit : hitAt t key key_len h d) :
    ∀ fuel p, p ≤ d → d - p < fuel →
    (∀ e, p ≤ e → e < d → ¬hitAt t key key_len h e ∧ ¬emptyAtStep t h e) →
    getLoop key key_len h t p fuel = (entryAt t (probeBucket t h d).loc).v := by
  intro fuel
  induction fuel with
  | zero => intro p _ hlt; omega
  | succ fuel ih =>
      intro p hpd hlt hpre
      by_cases hpd2 : p = d
      · subst hpd2
        exact getLoop_succ_hit key key_len h t p fuel hhit
      · have h1 := hpre p (Nat.le_refl p) (by omega)
        rw [getLoop_succ_skip key key_len h t p fuel h1.1 h1.2]
        exact ih (p + 1) (by omega) (by omega) (fun e he1 he2 => hpre e (by omega) he2)

/-- `getLoop` returns NULL when no probe step matches at all. -/
theorem getLoop_none (key : List Nat) (key_len h : Nat) (t : HT_T)
    (hnone : ∀ e, ¬hitAt t key key_len h e) :
    ∀ fuel p, getLoop key key_len h t p fuel = none := by
  intro fuel
  induction fuel with
  | zero => intro p; rfl
  | succ fuel ih =>
      intro p
      by_cases hne : emptyAtStep t h p
      · exact getLoop_succ_empty key key_len h t p fuel hne
      · rw [getLoop_succ_skip key key_len h t p fuel (hnone p) hne]
        exact ih (p + 1)

theorem existsLoop_succ_hit (key : List Nat) (key_len h : Nat) (t : HT_T) (p fuel : Nat)
    (hhit : hitAt t key key_len h p) :
    existsLoop key key_len h t p (fuel + 1) = true := by
  obtain ⟨h1, h2, h3, h4⟩ := hhit
  unfold probeBucket at h1 h2 h3 h4
  simp only [existsLoop]
  rw [if_pos ⟨h1, h2⟩, if_pos ⟨h3, h4⟩]

theorem existsLoop_succ_skip (key : List Nat) (key_len h : Nat) (t : HT_T) (p fuel : Nat)
    (hnh : ¬hitAt t key key_len h p) (hne : ¬emptyAtStep t h p) :
    existsLoop key key_len h t p (fuel + 1) = existsLoop key key_len h t (p + 1) fuel := by
  unfold hitAt probeBucket at hnh
  unfold emptyAtStep probeBucket at hne
  simp only [existsLoop]
  by_cases h1 : (bucketAt t (HT_CALC_LOC t (h + p))).state = HT_BUCKET_OCCUPIED ∧
      (bucketAt t (HT_CALC_LOC t (h + p))).hashcode = h
  · rw [if_pos h1, if_neg (fun hc => hnh ⟨h1.1, h1.2, hc.1, hc.2⟩)]
  · rw [if_neg h1, if_neg hne]

theorem existsLoop_succ_empty (key : List Nat) (key_len h : Nat) (t : HT_T) (p fuel : Nat)
    (hne : emptyAtStep t h p) :
    existsLoop key key_len h t p (fuel + 1) = false := by
  unfold emptyAtStep probeBucket at hne
  simp only [existsLoop]
  have h1 : ¬((bucketAt t (HT_CALC_LOC t (h + p))).state = HT_BUCKET_OCCUPIED ∧
      (bucketAt t (HT_CALC_LOC t (h + p))).hashcode = h) := by
    rw [hne]
    rintro ⟨hc, -⟩
    exact absurd hc (by decide)
  rw [if_neg h1, if_pos hne]

/-- `existsLoop` reports true at the first match when every earlier probed
bucket neither matches nor is EMPTY. -/
theorem existsLoop_found (key : List Nat) (key_len h : Nat) (t : HT_T) (d : Nat)
    (hhit : hitAt t key key_len h d) :
    ∀ fuel p, p ≤ d → d - p < fuel →
    (∀ e, p ≤ e → e < d → ¬hitAt t key key_len h e ∧ ¬emptyAtStep t h e) →
    existsLoop key key_len h t p fuel = true := by
  intro fuel
  induction fuel with
  | zero => intro p _ hlt; omega
  | succ fuel ih =>
      intro p hpd hlt hpre
      by_cases hpd2 : p = d
      · subst hpd2
        exact existsLoop_succ_hit key key_len h t p fuel hhit
      · have h1 := hpre p (Nat.le_refl p) (by omega)
        rw [existsLoop_succ_skip key key_len h t p fuel h1.1 h1.2]
        exact ih (p + 1) (by omega) (by omega) (fun e he1 he2 => hpre e (by omega) he2)

/-- `existsLoop` reports false when no probe step matches at all. -/
theorem existsLoop_none (key : List Nat) (key_len h : Nat) (t : HT_T)
    (hnone : ∀ e, ¬hitAt t key key_len h e) :
    ∀ fuel p, existsLoop key key_len h t p fuel = false := by
  intro fuel
  induction fuel with
  | zero => intro p; rfl
  | succ fuel ih =>
      intro p
      by_cases hne : emptyAtStep t h p
      · exact existsLoop_succ_empty key key_len h t p fuel hne
      · rw [existsLoop_succ_skip key key_len h t p fuel (hnone p) hne]
        exact ih (p + 1)

/-- The converse direction: if `existsLoop` reports true then some probed
step within the scanned window is a match. -/
theorem existsLoop_true_elim (key : List Nat) (key_len h : Nat) (t : HT_T) :
    ∀ fuel p, existsLoop key key_len h t p fuel = true →
    ∃ e, p ≤ e ∧ e < p + fuel ∧ hitAt t key key_len h e ∧
      (∀ e2, p ≤ e2 → e2 < e → ¬hitAt t key key_len h e2 ∧ ¬emptyAtStep t h e2) := by
  intro fuel
  induction fuel with
  | zero => intro p hf; simp [existsLoop] at hf
  | succ fuel ih =>
      intro p hf
      by_cases hh : hitAt t key key_len h p
      · exact ⟨p, Nat.le_refl p, by omega, hh, fun e2 h1 h2 => by omega⟩
      · by_cases hne : emptyAtStep t h p
        · rw [existsLoop_succ_empty key key_len h t p fuel hne] at hf
          exact absurd hf (by decide)
        · rw [existsLoop_succ_skip key key_len h t p fuel hh hne] at hf
          obtain ⟨e, he1, he2, he3, he4⟩ := ih (p + 1) hf
          refine ⟨e, by omega, by omega, he3, fun e2 h1 h2 => ?_⟩
          by_cases h3 : e2 = p
          · subst h3
            exact ⟨hh, hne⟩
          · exact he4 e2 (by omega) h2

theorem removeLoop_succ_hit (key : List Nat) (key_len h : Nat) (t : HT_T) (p fuel : Nat)
    (hhit : hitAt t key key_len h p) :
    removeLoop key key_len h t p (fuel + 1) =
      ({ t with
          values := t.values.set (probeBucket t h p).loc
            ({ k := (entryAt t (probeBucket t h p).loc).k.set 0 0, k_len := 0, v := none }),
          index := t.index.set (HT_CALC_LOC t (h + p))
            ({ probeBucket t h p with state := HT_DELETED_BUCKET, hashcode := 0 }),
          n := t.n - 1 },
        some (entryAt t (probeBucket t h p).loc).v) := by
  obtain ⟨h1, h2, h3, h4⟩ := hhit
  unfold probeBucket at h1 h2 h3 h4 ⊢
  simp only [removeLoop]
  rw [if_pos ⟨h1, h2⟩, if_pos ⟨h3, h4⟩]

theorem removeLoop_succ_skip (key : List Nat) (key_len h : Nat) (t : HT_T) (p fuel : Nat)
    (hnh : ¬hitAt t key key_len h p) (hne : ¬emptyAtStep t h p) :
    removeLoop key key_len h t p (fuel + 1) = removeLoop key key_len h t (p + 1) fuel := by
  unfold hitAt probeBucket at hnh
  unfold emptyAtStep probeBucket at hne
  simp only [removeLoop]
  by_cases h1 : (bucketAt t (HT_CALC_LOC t (h + p))).state = HT_BUCKET_OCCUPIED ∧
      (bucketAt t (HT_CALC_LOC t (h + p))).hashcode = h
  · rw [if_pos h1, if_neg (fun hc => hnh ⟨h1.1, h1.2, hc.1, hc.2⟩)]
  · rw [if_neg h1, if_neg hne]

theorem removeLoop_succ_empty (key : List Nat) (key_len h : Nat) (t : HT_T) (p fuel : Nat)
    (hne : emptyAtStep t h p) :
    removeLoop key key_len h t p (fuel + 1) = (t, none) := by
  unfold emptyAtStep probeBucket at hne
  simp only [removeLoop]
  have h1 : ¬((bucketAt t (HT_CALC_LOC t (h + p))).state = HT_BUCKET_OCCUPIED ∧
      (bucketAt t (HT_CALC_LOC t (h + p))).hashcode = h) := by
    rw [hne]
    rintro ⟨hc, -⟩
    exact absurd hc (by decide)
  rw [if_neg h1, if_pos hne]

/-- `removeLoop` removes the first match when every earlier probed bucket
neither matches nor is EMPTY: the entry is cleared, the bucket tombstoned
(with its `loc` preserved), `n` decremented, the stored value returned. -/
theorem removeLoop_found (key : List Nat) (key_len h : Nat) (t : HT_T) (d : Nat)
    (hhit : hitAt t key key_len h d) :
    ∀ fuel p, p ≤ d → d - p < fuel →
    (∀ e, p ≤ e → e < d → ¬hitAt t key key_len h e ∧ ¬emptyAtStep t h e) →
    removeLoop key key_len h t p fuel =
      ({ t with
          values := t.values.set (probeBucket t h d).loc ({ k := (entryAt t (probeBucket t h d).loc).k.set 0 0, k_len := 0, v := none }),
          index := t.index.set (HT_CALC_LOC t (h + d)) ({ probeBucket t h d with state := HT_DELETED_BUCKET, hashcode := 0 }),
          n := t.n - 1 },
        some (entryAt t (probeBucket t h d).loc).v) := by
  intro fuel
  induction fuel with
  | zero => intro p _ hlt; omega
  | succ fuel ih =>
      intro p hpd hlt hpre
      by_cases hpd2 : p = d
      · subst hpd2
        exact removeLoop_succ_hit key key_len h t p fuel hhit
      · have h1 := hpre p (Nat.le_refl p) (by omega)
        rw [removeLoop_succ_skip key key_len h t p fuel h1.1 h1.2]
        exact ih (p + 1) (by omega) (by omega) (fun e he1 he2 => hpre e (by omega) he2)

/-- `removeLoop` removes nothing when no probe step matches at all. -/
theorem removeLoop_none (key : List Nat) (key_len h : Nat) (t : HT_T)
    (hnone : ∀ e, ¬hitAt t key key_len h e) :
    ∀ fuel p, removeLoop key key_len h t p fuel = (t, none) := by
  intro fuel
  induction fuel with
  | zero => intro p; rfl
  | succ fuel ih =>
      intro p
      by_cases hne : emptyAtStep t h p
      · exact removeLoop_succ_empty key key_len h t p fuel hne
      · rw [removeLoop_succ_skip key key_len h t p fuel (hnone p) hne]
        exact ih (p + 1)

theorem putLoop_succ_update (key : List Nat) (key_len : Nat) (value : Option Nat)
    (h : Nat) (t : HT_T) (p fuel : Nat) (hhit : hitAt t key key_len h p) :
    putLoop key key_len value h t p (fuel + 1) =
      ({ t with values := t.values.set (probeBucket t h p).loc ({ entryAt t (probeBucket t h p).loc with v := value }) }, some value) := by
  obtain ⟨h1, h2, h3, h4⟩ := hhit
  unfold probeBucket at h1 h2 h3 h4 ⊢
  simp only [putLoop]
  rw [if_pos ⟨h1, h2⟩, if_pos ⟨h3, h4⟩]

theorem putLoop_succ_insert (key : List Nat) (key_len : Nat) (value : Option Nat)
    (h : Nat) (t : HT_T) (p fuel : Nat) (hfree : freeAtStep t h p) :
    putLoop key key_len value h t p (fuel + 1) =
      (putInsert t key key_len value h (HT_CALC_LOC t (h + p)) p, some value) := by
  unfold freeAtStep probeBucket at hfree
  simp only [putLoop]
  have h1 : ¬((bucketAt t (HT_CALC_LOC t (h + p))).state = HT_BUCKET_OCCUPIED ∧
      (bucketAt t (HT_CALC_LOC t (h + p))).hashcode = h) := fun hc => hfree hc.1
  rw [if_neg h1, if_pos hfree]

theorem putLoop_succ_skip (key : List Nat) (key_len : Nat) (value : Option Nat)
    (h : Nat) (t : HT_T) (p fuel : Nat)
    (hocc : (probeBucket t h p).state = HT_BUCKET_OCCUPIED)
    (hnh : ¬hitAt t key key_len h p) :
    putLoop key key_len value h t p (fuel + 1) = putLoop key key_len value h t (p + 1) fuel := by
  unfold hitAt probeBucket at hnh
  unfold probeBucket at hocc
  simp only [putLoop]
  by_cases h1 : (bucketAt t (HT_CALC_LOC t (h + p))).state = HT_BUCKET_OCCUPIED ∧
      (bucketAt t (HT_CALC_LOC t (h + p))).hashcode = h
  · rw [if_pos h1, if_neg (fun hc => hnh ⟨h1.1, h1.2, hc.1, hc.2⟩)]
  · rw [if_neg h1, if_neg (fun hc => hc hocc)]

/-- `putLoop` inserts at the first non-OCCUPIED bucket when every earlier
probed bucket is OCCUPIED and none of them matches the key. -/
theorem putLoop_insert_scan (key : List Nat) (key_len : Nat) (value : Option Nat)
    (h : Nat) (t : HT_T) (d : Nat) (hfree : freeAtStep t h d) :
    ∀ fuel p, p ≤ d → d - p < fuel →
    (∀ e, p ≤ e → e < d →
      (probeBucket t h e).state = HT_BUCKET_OCCUPIED ∧ ¬hitAt t key key_len h e) →
    putLoop key key_len value h t p fuel =
      (putInsert t key key_len value h (HT_CALC_LOC t (h + d)) d, some value) := by
  intro fuel
  induction fuel with
  | zero => intro p _ hlt; omega
  | succ fuel ih =>
      intro p hpd hlt hpre
      by_cases hpd2 : p = d
      · subst hpd2
        exact putLoop_succ_insert key key_len value h t p fuel hfree
      · have h1 := hpre p (Nat.le_refl p) (by omega)
        rw [putLoop_succ_skip key key_len value h t p fuel h1.1 h1.2]
        exact ih (p + 1) (by omega) (by omega) (fun e he1 he2 => hpre e (by omega) he2)

/-- `putLoop` updates in place at the first match when every earlier probed
bucket is OCCUPIED and none of them matches. -/
theorem putLoop_update_scan (key : List Nat) (key_len : Nat) (value : Option Nat)
    (h : Nat) (t : HT_T) (d : Nat) (hhit : hitAt t key key_len h d) :
    ∀ fuel p, p ≤ d → d - p < fuel →
    (∀ e, p ≤ e → e < d →
      (probeBucket t h e).state = HT_BUCKET_OCCUPIED ∧ ¬hitAt t key key_len h e) →
    putLoop key key_len value h t p fuel =
      ({ t with values := t.values.set (probeBucket t h d).loc ({ entryAt t (probeBucket t h d).loc with v := value }) }, some value) := by
  intro fuel
  induction fuel with
  | zero => intro p _ hlt; omega
  | succ fuel ih =>
      intro p hpd hlt hpre
      by_cases hpd2 : p = d
      · subst hpd2
        exact putLoop_succ_update key key_len value h t p fuel hhit
      · have h1 := hpre p (Nat.le_refl p) (by omega)
        rw [putLoop_succ_skip key key_len value h t p fuel h1.1 h1.2]
        exact ih (p + 1) (by omega) (by omega) (fun e he1 he2 => hpre e (by omega) he2)

theorem expandProbe_succ_free (b : HT_BUCKET_T) (h : Nat) (t : HT_T) (p fuel : Nat)
    (hfree : freeAtStep t h p) :
    expandProbe b h t p (fuel + 1) =
      (if p > ({ t with index := t.index.set (HT_CALC_LOC t (h + p)) b } : HT_T).max_probe
        then { t with index := t.index.set (HT_CALC_LOC t (h + p)) b, max_probe := p }
        else { t with index := t.index.set (HT_CALC_LOC t (h + p)) b }) := by
  unfold freeAtStep probeBucket at hfree
  simp only [expandProbe]
  rw [if_pos hfree]

theorem expandProbe_succ_skip (b : HT_BUCKET_T) (h : Nat) (t : HT_T) (p fuel : Nat)
    (hocc : (probeBucket t h p).state = HT_BUCKET_OCCUPIED) :
    expandProbe b h t p (fuel + 1) = expandProbe b h t (p + 1) fuel := by
  unfold probeBucket at hocc
  simp only [expandProbe]
  rw [if_neg (fun hc => hc hocc)]

/-- `expandProbe` places the record at the first non-OCCUPIED slot when every
earlier probed slot is OCCUPIED. -/
theorem expandProbe_scan (b : HT_BUCKET_T) (h : Nat) (t : HT_T) (d : Nat)
    (hfree : freeAtStep t h d) :
    ∀ fuel p, p ≤ d → d - p < fuel →
    (∀ e, p ≤ e → e < d → (probeBucket t h e).state = HT_BUCKET_OCCUPIED) →
    expandProbe b h t p fuel =
      (if d > ({ t with index := t.index.set (HT_CALC_LOC t (h + d)) b } : HT_T).max_probe
        then { t with index := t.index.set (HT_CALC_LOC t (h + d)) b, max_probe := d }
        else { t with index := t.index.set (HT_CALC_LOC t (h + d)) b }) := by
  intro fuel
  induction fuel with
  | zero => intro p _ hlt; omega
  | succ fuel ih =>
      intro p hpd hlt hpre
      by_cases hpd2 : p = d
      · subst hpd2
        exact expandProbe_succ_free b h t p fuel hfree
      · rw [expandProbe_succ_skip b h t p fuel (hpre p (Nat.le_refl p) (by omega))]
        exact ih (p + 1) (by omega) (by omega) (fun e he1 he2 => hpre e (by omega) he2)

/-! ### Reachability helpers and pigeonhole facts -/

theorem getD_replicate {α : Type _} (n i : Nat) (a d : α) (h : i < n) :
    (List.replicate n a).getD i d = a := by
  simp [List.getD_eq_getElem?_getD, List.getElem?_replicate, h]

theorem Reach_applyOp (t : HT_T) (op : Op) (ht : Reach t) (hop : validOp op) :
    Reach (applyOp t op) := by
  cases op with
  | put key key_len value allocOk => exact Reach.put t key key_len value allocOk ht hop
  | remove key key_len => exact Reach.remove t key key_len ht hop

theorem Reach_applyOps (ops : List Op) : ∀ t : HT_T, Reach t →
    (∀ op ∈ ops, validOp op) → Reach (applyOps t ops) := by
  induction ops with
  | nil => intro t ht _; exact ht
  | cons op ops ih =>
      intro t ht hv
      show Reach (applyOps (applyOp t op) ops)
      exact ih (applyOp t op) (Reach_applyOp t op ht (hv op (by simp)))
        (fun o ho => hv o (by simp [ho]))

/-- If fewer buckets are OCCUPIED than the index has slots, some slot is not
OCCUPIED. -/
theorem exists_not_occupied (t : HT_T) (h : occCount t < t.index.length) :
    ∃ p, p < t.index.length ∧ (bucketAt t p).state ≠ HT_BUCKET_OCCUPIED := by
  by_contra hno
  push_neg at hno
  have hall : ∀ b ∈ t.index, (fun b : HT_BUCKET_T => decide (b.state = HT_BUCKET_OCCUPIED)) b = true := by
    intro b hb
    obtain ⟨i, hi, hbi⟩ := List.getElem_of_mem hb
    have hbat : bucketAt t i = b := by
      unfold bucketAt
      rw [List.getD_eq_getElem?_getD, List.getElem?_eq_getElem hi, hbi]
      rfl
    simp only [decide_eq_true_eq]
    rw [← hbat]
    exact hno i hi
  have := List.countP_eq_length.2 hall
  unfold occCount at h
  omega

/-- If every non-EMPTY bucket's `loc` is below `m < cap` and those `loc`s are
pairwise distinct, some bucket is not OCCUPIED. -/
theorem exists_not_occupied_of_locs (t : HT_T) (m : Nat)
    (hloc : ∀ i, i < t.cap → (bucketAt t i).state = HT_BUCKET_OCCUPIED →
      (bucketAt t i).loc < m)
    (hinj : ∀ i j, i < t.cap → j < t.cap → i ≠ j →
      (bucketAt t i).state = HT_BUCKET_OCCUPIED →
      (bucketAt t j).state = HT_BUCKET_OCCUPIED →
      (bucketAt t i).loc ≠ (bucketAt t j).loc)
    (hm : m < t.cap) :
    ∃ p, p < t.cap ∧ (bucketAt t p).state ≠ HT_BUCKET_OCCUPIED := by
  by_contra hno
  push_neg at hno
  have hmaps : ∀ i ∈ Finset.range t.cap, (bucketAt t i).loc ∈ Finset.range m := by
    intro i hi
    rw [Finset.mem_range] at hi
    rw [Finset.mem_range]
    exact hloc i hi (hno i hi)
  have hinj2 : Set.InjOn (fun i => (bucketAt t i).loc) (Finset.range t.cap) := by
    intro i hi j hj hij
    rw [Finset.coe_range, Set.mem_Iio] at hi hj
    by_contra hne
    exact hinj i j hi hj hne (hno i hi) (hno j hj) hij
  have := Finset.card_le_card_of_injOn (fun i => (bucketAt t i).loc) hmaps hinj2
  simp at this
  omega

/-! ### The insert arm of HT_put -/

theorem putInsert_deleted (t : HT_T) (key : List Nat) (key_len : Nat) (value : Option Nat)
    (hashcode index_loc probe_len : Nat)
    (hdel : (bucketAt t index_loc).state = HT_DELETED_BUCKET) :
    putInsert t key key_len value hashcode index_loc probe_len =
      { t with
        values := t.values.set (bucketAt t index_loc).loc ({ k := (strncpyList (entryAt t (bucketAt t index_loc).loc).k key key_len).set (key_len + 1) 0, k_len := key_len, v := value }),
        index := t.index.set index_loc ({ hashcode := hashcode, loc := (bucketAt t index_loc).loc, state := HT_BUCKET_OCCUPIED }),
        max_probe := max t.max_probe probe_len,
        n := t.n + 1 } := by
  have hne : ¬(bucketAt t index_loc).state = HT_EMPTY_BUCKET := by
    rw [hdel]
    decide
  unfold putInsert
  dsimp only
  simp only [if_neg hne]
  by_cases hmp : probe_len > t.max_probe
  · simp only [if_pos hmp]
    have hmax : max t.max_probe probe_len = probe_len := by omega
    rw [hmax]
  · simp only [if_neg hmp]
    have hmax : max t.max_probe probe_len = t.max_probe := by omega
    rw [hmax]

theorem putInsert_empty (t : HT_T) (key : List Nat) (key_len : Nat) (value : Option Nat)
    (hashcode index_loc probe_len : Nat)
    (hemp : (bucketAt t index_loc).state = HT_EMPTY_BUCKET) :
    putInsert t key key_len value hashcode index_loc probe_len =
      { t with
        values := t.values.set t.ins_loc ({ k := (strncpyList (entryAt t t.ins_loc).k key key_len).set (key_len + 1) 0, k_len := key_len, v := value }),
        index := t.index.set index_loc ({ hashcode := hashcode, loc := t.ins_loc, state := HT_BUCKET_OCCUPIED }),
        max_probe := max t.max_probe probe_len,
        ins_loc := t.ins_loc + 1,
        n := t.n + 1 } := by
  unfold putInsert
  dsimp only
  simp only [if_pos hemp]
  by_cases hmp : probe_len > t.max_probe
  · simp only [if_pos hmp]
    have hmax : max t.max_probe probe_len = probe_len := by omega
    rw [hmax]
    rfl
  · simp only [if_neg hmp]
    have hmax : max t.max_probe probe_len = t.max_probe := by omega
    rw [hmax]
    rfl

/-- The comparator accepts a buffer whose first `key.length` bytes agree with
the (zero-free) key. -/
theorem strncmp_prefix (key : List Nat) : ∀ (buf : List Nat), validKey key →
    key.length ≤ buf.length →
    (∀ j, j < key.length → buf.getD j 0 = key.getD j 0) →
    strncmp key buf key.length = 0 := by
  induction key with
  | nil => intro buf _ _ _; exact strncmp_zero_len _ _
  | cons x rest ih =>
      intro buf hv hlen hag
      cases buf with
      | nil => simp at hlen
      | cons y buf' =>
          have hx : 0 < x ∧ x < 256 := hv x (by simp)
          have hy : y = x := by
            have := hag 0 (by simp)
            simpa using this
          show strncmp (x :: rest) (y :: buf') (rest.length + 1) = 0
          rw [strncmp, if_pos hy.symm, if_neg (by omega : ¬x = 0)]
          exact ih buf' (fun c hc => hv c (by simp [hc])) (by simpa using hlen)
            (fun j hj => by
              have := hag (j + 1) (by simp; omega)
              simpa using this)

/-! ### Claim theorems -/

/-- C5 (counterexample): the default hasher is not the spec's DJB2 — for the
key string `"ab"` (bytes 97, 98) declared with `key_len = 1`, the loop also
consumes the byte at index 1, so the result differs from DJB2 over the first
1 byte. -/
theorem C5_counterexample : _HT_hash [97, 98] 1 ≠ djb2_spec [97, 98] 1 := by decide

/-- C5 (amended): the default hasher is DJB2 with 64-bit wrap-around applied
to the first `key_len + 1` bytes of the key string (one byte more than the
claim states), stopping early on a zero byte. -/
theorem C5_hasher_is_djb2_over_one_extra_byte (key : List Nat) (key_len : Nat) :
    _HT_hash key key_len = djb2Go (key.take (key_len + 1)) 5381 :=
  _HT_hash_eq_djb2 key key_len

/-- C6 (code bug): the insert path accepts the maximal key length
`HT_MAX_KEY_LEN - 1 = 31` (the length check `key_len > HT_MAX_KEY_LEN - 1`
does not fire), yet its terminating-zero write then addresses buffer index
`key_len + 1 = 32 = HT_MAX_KEY_LEN`, which is not inside the
`MAX_KEY_LEN`-byte buffer. -/
theorem C6_terminator_write_escapes_buffer :
    ¬(HT_MAX_KEY_LEN - 1 > HT_MAX_KEY_LEN - 1) ∧
    HT_MAX_KEY_LEN ∈ putKeyWriteIdx (HT_MAX_KEY_LEN - 1) ∧
    ¬(HT_MAX_KEY_LEN < HT_MAX_KEY_LEN) ∧
    (putKeyWriteIdx (HT_MAX_KEY_LEN - 2)).all (fun i => i < HT_MAX_KEY_LEN) = true := by
  decide

/-- C8: when a put triggers a resize (`n > expand`, `n == cap` or
`ins_loc == cap`) and the resize's allocation fails, `HT_put` returns the
failure sentinel and the table — every field, both arrays included — is
exactly its pre-resize value. -/
theorem C8_alloc_failure_put_unchanged (t : HT_T) (key : List Nat)
    (key_len : Nat) (value : Option Nat)
    (hlen : ¬key_len > HT_MAX_KEY_LEN - 1)
    (htrig : t.n > t.expand ∨ t.n = t.cap ∨ t.ins_loc = t.cap) :
    HT_put t key key_len value false = (t, none) := by
  unfold HT_put
  rw [if_neg hlen, if_pos htrig]
  rfl

/-- C8 witness: a concrete table past its expansion threshold. -/
theorem C8_alloc_failure_put_unchanged_witness :
    HT_put ({ HT_new 16 with n := 13 }) [97] 1 (some 5) false =
      ({ HT_new 16 with n := 13 }, none) :=
  C8_alloc_failure_put_unchanged ({ HT_new 16 with n := 13 }) [97] 1 (some 5)
    (by decide) (by decide)

/-- C2 (counterexample): a reachable table (key 113 bound twice after a put
landed on the tombstone of removed key 97, per C4) in which key 113 is
present, `HT_remove` finds and removes a binding and returns its stored
value — yet afterwards `exists` is still true, `get` still returns a value,
and the key is still in the table. -/
theorem C2_counterexample :
    Reach tblDup ∧
    HT_exists tblDup [113] 1 = true ∧
    (HT_remove tblDup [113] 1).2 = some (some 30) ∧
    HT_exists (HT_remove tblDup [113] 1).1 [113] 1 = true ∧
    HT_get (HT_remove tblDup [113] 1).1 [113] 1 = some 20 :=
  ⟨Reach_applyOps opsDup (HT_new 16) (Reach.new 16) (by decide),
   by decide, by decide, by decide, by decide⟩

/-- C3 (counterexample): a reachable table with `n = 4 < cap = 16` in which
no index bucket is EMPTY (12 tombstones plus 4 occupied buckets). -/
theorem C3_counterexample :
    Reach tblChurn ∧
    tblChurn.n < tblChurn.cap ∧
    tblChurn.index.all (fun b => b.state != HT_EMPTY_BUCKET) = true :=
  ⟨Reach_applyOps opsChurn (HT_new 16) (Reach.new 16) (by decide),
   by decide, by decide⟩

/-- C9 (counterexample): a reachable table with live count `n = 1` whose one
stored value handle is null; destruction invokes the deallocator 0 times,
not `n` times. -/
theorem C9_counterexample :
    Reach tblNullVal ∧
    HT_exists tblNullVal [110, 117, 108, 108] 4 = true ∧
    tblNullVal.n = 1 ∧
    HT_free_dealloc_count tblNullVal = 0 :=
  ⟨Reach.put (HT_new 16) [110, 117, 108, 108] 4 none true (Reach.new 16) (by decide),
   by decide, by decide, by decide⟩

/-! ### The structural invariant: construction -/

theorem countP_set_balance {α : Type _} (pred : α → Bool) :
    ∀ (l : List α) (i : Nat) (a d : α), i < l.length →
    (l.set i a).countP pred + (if pred (l.getD i d) then 1 else 0) =
    l.countP pred + (if pred a then 1 else 0) := by
  intro l
  induction l with
  | nil => intro i a d hi; simp at hi
  | cons x xs ih =>
      intro i a d hi
      cases i with
      | zero =>
          show (a :: xs).countP pred + _ = _
          rw [List.countP_cons, List.countP_cons]
          have : (x :: xs).getD 0 d = x := rfl
          rw [this]
          omega
      | succ i =>
          show (x :: xs.set i a).countP pred + _ = _
          rw [List.countP_cons, List.countP_cons]
          have h2 : (x :: xs).getD (i + 1) d = xs.getD i d := rfl
          rw [h2]
          have := ih i a d (by simpa using hi)
          omega

theorem HT_CALC_LOC_lt (t : HT_T) (x : Nat) (hcap : 0 < t.cap) :
    HT_CALC_LOC t x < t.cap := by
  unfold HT_CALC_LOC
  have h1 : x &&& (t.cap - 1) ≤ t.cap - 1 := Nat.and_le_right
  omega

/-- `occCount` only depends on the index array. -/
theorem occCount_values (t : HT_T) (V : List HT_ENTRY_T) :
    occCount { t with values := V } = occCount t := rfl

theorem occCount_set (t : HT_T) (i : Nat) (b : HT_BUCKET_T) (hi : i < t.index.length) :
    occCount { t with index := t.index.set i b } +
      (if (bucketAt t i).state = HT_BUCKET_OCCUPIED then 1 else 0) =
    occCount t + (if b.state = HT_BUCKET_OCCUPIED then 1 else 0) := by
  unfold occCount bucketAt
  have := countP_set_balance (fun b : HT_BUCKET_T => decide (b.state = HT_BUCKET_OCCUPIED))
    t.index i b emptyBucket hi
  simp only [decide_eq_true_eq] at this
  simpa using this

theorem HT_new_cap_pow (req : Nat) : ∃ k, 4 ≤ k ∧ k ≤ 30 ∧ (HT_new req).cap = 2 ^ k := by
  have hcap : (HT_new req).cap =
      _HT_round_up (if (if req < HT_DEFAULT_CAPACITY then HT_DEFAULT_CAPACITY else req) >
          HT_MAX_CAPACITY then HT_MAX_CAPACITY
        else (if req < HT_DEFAULT_CAPACITY then HT_DEFAULT_CAPACITY else req)) := rfl
  rw [hcap]
  set rc1 := if req < HT_DEFAULT_CAPACITY then HT_DEFAULT_CAPACITY else req with hrc1
  set rc2 := if rc1 > HT_MAX_CAPACITY then HT_MAX_CAPACITY else rc1 with hrc2
  have hM : HT_MAX_CAPACITY = 1073741824 := rfl
  have hD : HT_DEFAULT_CAPACITY = 16 := rfl
  have h230 : (2:Nat) ^ 30 = 1073741824 := by norm_num
  have hb : 16 ≤ rc2 ∧ rc2 ≤ 2 ^ 30 := by
    rw [hrc2, hrc1, hM, hD, h230]
    split_ifs <;> omega
  exact round_up_bounds rc2 hb.1 hb.2

theorem bucketAt_new (req i : Nat) (hi : i < (HT_new req).cap) :
    bucketAt (HT_new req) i = emptyBucket := by
  unfold bucketAt
  have : (HT_new req).index = List.replicate (HT_new req).cap emptyBucket := rfl
  rw [this]
  exact getD_replicate _ _ _ _ hi

theorem entryAt_new (req i : Nat) : entryAt (HT_new req) i = zeroEntry := by
  unfold entryAt
  have hv : (HT_new req).values = List.replicate (HT_new req).cap zeroEntry := rfl
  rw [hv]
  by_cases hi : i < (HT_new req).cap
  · exact getD_replicate _ _ _ _ hi
  · rw [List.getD_eq_getElem?_getD, List.getElem?_eq_none (by simpa using hi)]
    rfl

/-- A fresh table satisfies the representation invariant. -/
theorem WF_new (req : Nat) : WF (HT_new req) := by
  obtain ⟨k, hk4, _, hcap⟩ := HT_new_cap_pow req
  refine ⟨?_, ?_, ⟨k, hk4, hcap⟩, rfl, Nat.zero_le _, ?_, ?_, ?_, ?_, ?_⟩
  · show (List.replicate (HT_new req).cap emptyBucket).length = _
    simp
  · show (List.replicate (HT_new req).cap zeroEntry).length = _
    simp
  · show 0 = occCount (HT_new req)
    unfold occCount
    have : (HT_new req).index = List.replicate (HT_new req).cap emptyBucket := rfl
    rw [this, List.countP_replicate, if_neg (by decide)]
  · intro i hi
    rw [bucketAt_new req i hi]
    right; left
    rfl
  · intro i hi hne
    exact absurd (by rw [bucketAt_new req i hi]; rfl) hne
  · intro i j hi _ _ hne _
    exact absurd (by rw [bucketAt_new req i hi]; rfl) hne
  · intro j _
    rw [entryAt_new req j]
    simp [zeroEntry]

/-! ### The structural invariant: mutation steps -/

/-- Overwriting one entries slot with an entry of full buffer length
preserves the invariant. -/
theorem WF_set_value (t : HT_T) (hw : WF t) (L : Nat) (E : HT_ENTRY_T)
    (hE : E.k.length = HT_MAX_KEY_LEN) :
    WF { t with values := t.values.set L E } := by
  refine ⟨hw.ilen, ?_, hw.cap_pow, hw.exp_eq, hw.ins_le, hw.n_occ, hw.states,
    hw.loc_lt, hw.loc_inj, ?_⟩
  · show (t.values.set L E).length = t.cap
    rw [List.length_set]
    exact hw.vlen
  · intro j hj
    show ((t.values.set L E).getD j zeroEntry).k.length = HT_MAX_KEY_LEN
    by_cases hL : L < t.values.length
    · by_cases hjL : L = j
      · subst hjL
        rw [getD_set_self hL]
        exact hE
      · rw [getD_set_ne hjL]
        exact hw.kbuf j hj
    · rw [List.set_eq_of_length_le (by omega)]
      exact hw.kbuf j hj

/-- The insert arm of `HT_put` preserves the invariant (given the insertion
cursor is strictly below capacity, which the pre-resize check guarantees). -/
theorem WF_putInsert (t : HT_T) (hw : WF t) (key : List Nat) (key_len : Nat)
    (value : Option Nat) (h q d : Nat) (hq : q < t.cap)
    (hfree : (bucketAt t q).state ≠ HT_BUCKET_OCCUPIED)
    (hins : t.ins_loc < t.cap) :
    WF (putInsert t key key_len value h q d) := by
  have hqlen : q < t.index.length := by rw [hw.ilen]; exact hq
  have hcappos : 0 < t.cap := by
    obtain ⟨k, -, hk⟩ := hw.cap_pow
    rw [hk]
    positivity
  rcases hw.states q hq with hocc | hemp | hdel
  · exact absurd hocc hfree
  · -- EMPTY bucket: fresh slot at ins_loc, cursor bumped
    rw [putInsert_empty t key key_len value h q d hemp]
    have hb : ∀ i, bucketAt { t with
        values := t.values.set t.ins_loc ({ k := (strncpyList (entryAt t t.ins_loc).k key key_len).set (key_len + 1) 0, k_len := key_len, v := value }),
        index := t.index.set q ({ hashcode := h, loc := t.ins_loc, state := HT_BUCKET_OCCUPIED }),
        max_probe := max t.max_probe d,
        ins_loc := t.ins_loc + 1,
        n := t.n + 1 } i =
        (t.index.set q ({ hashcode := h, loc := t.ins_loc, state := HT_BUCKET_OCCUPIED })).getD i emptyBucket := fun i => rfl
    refine ⟨?_, ?_, hw.cap_pow, hw.exp_eq, by show t.ins_loc + 1 ≤ t.cap; omega, ?_, ?_, ?_, ?_, ?_⟩
    · show (t.index.set q _).length = t.cap
      rw [List.length_set]
      exact hw.ilen
    · show (t.values.set t.ins_loc _).length = t.cap
      rw [List.length_set]
      exact hw.vlen
    · show t.n + 1 = occCount _
      have hocceq : occCount { t with
          values := t.values.set t.ins_loc ({ k := (strncpyList (entryAt t t.ins_loc).k key key_len).set (key_len + 1) 0, k_len := key_len, v := value }),
          index := t.index.set q ({ hashcode := h, loc := t.ins_loc, state := HT_BUCKET_OCCUPIED }),
          max_probe := max t.max_probe d,
          ins_loc := t.ins_loc + 1,
          n := t.n + 1 } = occCount { t with index := t.index.set q ({ hashcode := h, loc := t.ins_loc, state := HT_BUCKET_OCCUPIED }) } := rfl
      rw [hocceq]
      have hbal := occCount_set t q ({ hashcode := h, loc := t.ins_loc, state := HT_BUCKET_OCCUPIED }) hqlen
      rw [if_neg (by rw [hemp]; decide), if_pos (by rfl)] at hbal
      have hnocc := hw.n_occ
      omega
    · intro i hi
      rw [hb i]
      by_cases hiq : q = i
      · subst hiq
        rw [getD_set_self hqlen]
        left
        rfl
      · rw [getD_set_ne hiq]
        exact hw.states i hi
    · intro i hi hne
      rw [hb i] at hne ⊢
      by_cases hiq : q = i
      · subst hiq
        rw [getD_set_self hqlen]
        show t.ins_loc < t.ins_loc + 1
        omega
      · rw [getD_set_ne hiq] at hne ⊢
        have := hw.loc_lt i hi hne
        show (bucketAt t i).loc < t.ins_loc + 1
        omega
    · intro i j hi hj hij hnei hnej
      rw [hb i] at hnei ⊢
      rw [hb j] at hnej ⊢
      by_cases hiq : q = i
      · subst hiq
        rw [getD_set_self hqlen]
        rw [getD_set_ne hij] at hnej ⊢
        have := hw.loc_lt j hj hnej
        show t.ins_loc ≠ (bucketAt t j).loc
        omega
      · rw [getD_set_ne hiq] at hnei ⊢
        by_cases hjq : q = j
        · subst hjq
          rw [getD_set_self hqlen]
          have := hw.loc_lt i hi hnei
          show (bucketAt t i).loc ≠ t.ins_loc
          omega
        · rw [getD_set_ne hjq] at hnej ⊢
          exact hw.loc_inj i j hi hj hij hnei hnej
    · intro j hj
      show ((t.values.set t.ins_loc _).getD j zeroEntry).k.length = HT_MAX_KEY_LEN
      have hinslen : t.ins_loc < t.values.length := by rw [hw.vlen]; exact hins
      by_cases hjL : t.ins_loc = j
      · subst hjL
        rw [getD_set_self hinslen]
        show ((strncpyList (entryAt t t.ins_loc).k key key_len).set (key_len + 1) 0).length = _
        rw [List.length_set, strncpyList_length]
        exact hw.kbuf t.ins_loc hins
      · rw [getD_set_ne hjL]
        exact hw.kbuf j hj
  · -- DELETED bucket: the tombstone's entries slot is reused
    have hqne : (bucketAt t q).state ≠ HT_EMPTY_BUCKET := by rw [hdel]; decide
    have hloclt : (bucketAt t q).loc < t.ins_loc := hw.loc_lt q hq hqne
    rw [putInsert_deleted t key key_len value h q d hdel]
    have hb : ∀ i, bucketAt { t with
        values := t.values.set (bucketAt t q).loc ({ k := (strncpyList (entryAt t (bucketAt t q).loc).k key key_len).set (key_len + 1) 0, k_len := key_len, v := value }),
        index := t.index.set q ({ hashcode := h, loc := (bucketAt t q).loc, state := HT_BUCKET_OCCUPIED }),
        max_probe := max t.max_probe d,
        n := t.n + 1 } i =
        (t.index.set q ({ hashcode := h, loc := (bucketAt t q).loc, state := HT_BUCKET_OCCUPIED })).getD i emptyBucket := fun i => rfl
    refine ⟨?_, ?_, hw.cap_pow, hw.exp_eq, hw.ins_le, ?_, ?_, ?_, ?_, ?_⟩
    · show (t.index.set q _).length = t.cap
      rw [List.length_set]
      exact hw.ilen
    · show (t.values.set (bucketAt t q).loc _).length = t.cap
      rw [List.length_set]
      exact hw.vlen
    · show t.n + 1 = occCount _
      have hocceq : occCount { t with
          values := t.values.set (bucketAt t q).loc ({ k := (strncpyList (entryAt t (bucketAt t q).loc).k key key_len).set (key_len + 1) 0, k_len := key_len, v := value }),
          index := t.index.set q ({ hashcode := h, loc := (bucketAt t q).loc, state := HT_BUCKET_OCCUPIED }),
          max_probe := max t.max_probe d,
          n := t.n + 1 } = occCount { t with index := t.index.set q ({ hashcode := h, loc := (bucketAt t q).loc, state := HT_BUCKET_OCCUPIED }) } := rfl
      rw [hocceq]
      have hbal := occCount_set t q ({ hashcode := h, loc := (bucketAt t q).loc, state := HT_BUCKET_OCCUPIED }) hqlen
      rw [if_neg (by rw [hdel]; decide), if_pos (by rfl)] at hbal
      have hnocc := hw.n_occ
      omega
    · intro i hi
      rw [hb i]
      by_cases hiq : q = i
      · subst hiq
        rw [getD_set_self hqlen]
        left
        rfl
      · rw [getD_set_ne hiq]
        exact hw.states i hi
    · intro i hi hne
      rw [hb i] at hne ⊢
      by_cases hiq : q = i
      · subst hiq
        rw [getD_set_self hqlen]
        exact hloclt
      · rw [getD_set_ne hiq] at hne ⊢
        exact hw.loc_lt i hi hne
    · intro i j hi hj hij hnei hnej
      rw [hb i] at hnei ⊢
      rw [hb j] at hnej ⊢
      by_cases hiq : q = i
      · subst hiq
        rw [getD_set_self hqlen]
        rw [getD_set_ne hij] at hnej ⊢
        exact hw.loc_inj q j hq hj hij hqne hnej
      · rw [getD_set_ne hiq] at hnei ⊢
        by_cases hjq : q = j
        · subst hjq
          rw [getD_set_self hqlen]
          exact hw.loc_inj i q hi hq (fun hc => hiq hc.symm) hnei hqne
        · rw [getD_set_ne hjq] at hnej ⊢
          exact hw.loc_inj i j hi hj hij hnei hnej
    · intro j hj
      show ((t.values.set (bucketAt t q).loc _).getD j zeroEntry).k.length = HT_MAX_KEY_LEN
      have hL : (bucketAt t q).loc < t.values.length := by
        rw [hw.vlen]
        have := hw.ins_le
        omega
      by_cases hjL : (bucketAt t q).loc = j
      · subst hjL
        rw [getD_set_self hL]
        show ((strncpyList (entryAt t (bucketAt t q).loc).k key key_len).set (key_len + 1) 0).length = _
        rw [List.length_set, strncpyList_length]
        exact hw.kbuf (bucketAt t q).loc (by have := hw.ins_le; omega)
      · rw [getD_set_ne hjL]
        exact hw.kbuf j hj

/-! ### The resize: helper facts -/

/-- Distinct probe steps within one period land on distinct positions. -/
theorem probe_pos_inj (cap h e e2 : Nat) (hcap : 0 < cap) (he : e < cap) (he2 : e2 < cap)
    (hne : e ≠ e2) : (h + e) % cap ≠ (h + e2) % cap := by
  intro hc
  have h1 := probeDist_probe cap h e hcap he
  have h2 := probeDist_probe cap h e2 hcap he2
  rw [hc] at h1
  omega

theorem range_countP_succ (f : Nat → Bool) (j : Nat) :
    (List.range (j + 1)).countP f = (List.range j).countP f + (if f j then 1 else 0) := by
  rw [List.range_succ, List.countP_append, List.countP_singleton]

theorem countP_eq_range_countP {α : Type _} (p : α → Bool) (d : α) :
    ∀ l : List α, l.countP p = (List.range l.length).countP (fun i => p (l.getD i d)) := by
  intro l
  induction l with
  | nil => rfl
  | cons x xs ih =>
      show (x :: xs).countP p = (List.range (xs.length + 1)).countP _
      rw [List.countP_cons, List.range_succ_eq_map, List.countP_cons, List.countP_map]
      have he : ((fun i => p ((x :: xs).getD i d)) ∘ (fun i => i + 1)) =
          (fun i => p (xs.getD i d)) := by
        funext i
        rfl
      rw [he, ← ih]
      have h0 : (x :: xs).getD 0 d = x := rfl
      rw [h0]

/-- The least free probe step for hash `h`, when some position is free. -/
theorem exists_least_free (t : HT_T) (h k : Nat) (hcap : t.cap = 2 ^ k)
    (hex : ∃ p, p < t.cap ∧ (bucketAt t p).state ≠ HT_BUCKET_OCCUPIED) :
    ∃ d, d < t.cap ∧ freeAtStep t h d ∧
      ∀ e, e < d → (probeBucket t h e).state = HT_BUCKET_OCCUPIED := by
  obtain ⟨p, hp, hps⟩ := hex
  have hcappos : 0 < t.cap := by rw [hcap]; positivity
  have hfe : freeAtStep t h (probeDist t.cap h p) := by
    unfold freeAtStep probeBucket
    rw [HT_CALC_LOC_eq_mod t _ k hcap, probe_hits t.cap h p hcappos hp]
    exact hps
  have hne : ∃ d, freeAtStep t h d := ⟨_, hfe⟩
  refine ⟨Nat.find hne, ?_, Nat.find_spec hne, ?_⟩
  · have h1 : Nat.find hne ≤ probeDist t.cap h p := Nat.find_min' hne hfe
    have h2 := probeDist_lt t.cap h p hcappos
    omega
  · intro e he
    have h3 := Nat.find_min hne he
    unfold freeAtStep at h3
    exact not_not.1 h3

theorem copyVals_getElem? (src dst : List HT_ENTRY_T) (n : Nat) : ∀ j,
    ((List.range n).foldl (fun vs i => vs.set i (src.getD i zeroEntry)) dst)[j]? =
      if j < n ∧ j < dst.length then some (src.getD j zeroEntry) else dst[j]? := by
  induction n with
  | zero => intro j; simp
  | succ n ih =>
      intro j
      rw [List.range_succ, List.foldl_append]
      show ((List.range n).foldl _ dst |>.set n _)[j]? = _
      rw [List.getElem?_set]
      have hlen : ((List.range n).foldl (fun vs i => vs.set i (src.getD i zeroEntry)) dst).length = dst.length := by
        clear ih j
        induction n with
        | zero => rfl
        | succ n ih2 =>
            rw [List.range_succ, List.foldl_append]
            show ((List.range n).foldl _ dst |>.set n _).length = _
            rw [List.length_set, ih2]
      rw [hlen, ih j]
      by_cases hj : n = j
      · subst hj
        by_cases hl : n < dst.length
        · have hc : n < n + 1 ∧ n < dst.length := ⟨by omega, hl⟩
          rw [if_pos hl, if_pos hc]
          simp
        · have hc : ¬(n < n + 1 ∧ n < dst.length) := by omega
          rw [if_neg hl, if_neg hc, List.getElem?_eq_none (by omega)]
          simp
      · by_cases hjn : j < n
        · by_cases hl : j < dst.length
          · have hc1 : j < n ∧ j < dst.length := ⟨hjn, hl⟩
            have hc2 : j < n + 1 ∧ j < dst.length := ⟨by omega, hl⟩
            rw [if_neg hj, if_pos hc1, if_pos hc2]
          · have hc1 : ¬(j < n ∧ j < dst.length) := by omega
            have hc2 : ¬(j < n + 1 ∧ j < dst.length) := by omega
            rw [if_neg hj, if_neg hc1, if_neg hc2]
        · have hc1 : ¬(j < n ∧ j < dst.length) := by omega
          have hc2 : ¬(j < n + 1 ∧ j < dst.length) := by omega
          rw [if_neg hj, if_neg hc1, if_neg hc2]

theorem copyVals_length (src dst : List HT_ENTRY_T) (n : Nat) :
    ((List.range n).foldl (fun vs i => vs.set i (src.getD i zeroEntry)) dst).length =
      dst.length := by
  induction n with
  | zero => rfl
  | succ n ih =>
      rw [List.range_succ, List.foldl_append]
      show ((List.range n).foldl _ dst |>.set n _).length = _
      rw [List.length_set, ih]

/-! ### The resize: index rebuild -/

/-- Introduction rule for `pathOK` at a position reached after `d` probe
steps. -/
theorem pathOK_intro (t : HT_T) (p d : Nat) (hcappos : 0 < t.cap)
    (hd : d < t.cap) (hpos : p = ((bucketAt t p).hashcode + d) % t.cap)
    (hdm : d ≤ t.max_probe)
    (hpre : ∀ e, e < d →
      (bucketAt t (((bucketAt t p).hashcode + e) % t.cap)).state = HT_BUCKET_OCCUPIED) :
    pathOK t p := by
  have hprd : probeDist t.cap (bucketAt t p).hashcode p = d := by
    nth_rewrite 2 [hpos]
    exact probeDist_probe t.cap (bucketAt t p).hashcode d hcappos hd
  unfold pathOK
  rw [hprd]
  exact ⟨hdm, hpre⟩

theorem rebuild_place (oldIdx : List HT_BUCKET_T) (base : HT_T) (oldCap : Nat)
    (hOldInj : ∀ i i2, i < oldCap → i2 < oldCap → i ≠ i2 →
      (oldIdx.getD i emptyBucket).state = HT_BUCKET_OCCUPIED →
      (oldIdx.getD i2 emptyBucket).state = HT_BUCKET_OCCUPIED →
      (oldIdx.getD i emptyBucket).loc ≠ (oldIdx.getD i2 emptyBucket).loc)
    (j : Nat) (hj : j < oldCap)
    (tAcc : HT_T) (hInv : RebuildInv oldIdx base j tAcc)
    (b : HT_BUCKET_T) (hb : oldIdx.getD j emptyBucket = b)
    (hbocc : b.state = HT_BUCKET_OCCUPIED)
    (d q : Nat) (hcappos : 0 < base.cap) (hd : d < base.cap)
    (hq : q = (b.hashcode + d) % base.cap)
    (hfree : (bucketAt tAcc q).state ≠ HT_BUCKET_OCCUPIED)
    (hpre : ∀ e, e < d →
      (bucketAt tAcc ((b.hashcode + e) % base.cap)).state = HT_BUCKET_OCCUPIED)
    (M : Nat) (hM1 : tAcc.max_probe ≤ M) (hM2 : d ≤ M) :
    RebuildInv oldIdx base (j + 1)
      { tAcc with index := tAcc.index.set q b, max_probe := M } := by
  have hqlt : q < base.cap := by rw [hq]; exact Nat.mod_lt _ hcappos
  have hqlen : q < tAcc.index.length := by rw [hInv.ilen]; exact hqlt
  set t' := { tAcc with index := tAcc.index.set q b, max_probe := M } with ht'
  have hbAt : ∀ i, bucketAt t' i = (tAcc.index.set q b).getD i emptyBucket := fun i => rfl
  have hbq : bucketAt t' q = b := by rw [hbAt q]; exact getD_set_self hqlen
  have hbne : ∀ p2, q ≠ p2 → bucketAt t' p2 = bucketAt tAcc p2 := by
    intro p2 hne
    rw [hbAt p2]
    exact getD_set_ne hne
  have hcap' : t'.cap = base.cap := hInv.capp
  have hmp' : t'.max_probe = M := rfl
  refine ⟨hInv.vals, hInv.nn, hInv.ins, hInv.expd, hInv.capp, ?_, ?_, ?_, ?_, ?_, ?_⟩
  · show (tAcc.index.set q b).length = base.cap
    rw [List.length_set]
    exact hInv.ilen
  · intro p hp
    by_cases hpq : q = p
    · subst hpq
      rw [hbq]
      left
      exact hbocc
    · rw [hbne p hpq]
      exact hInv.states p hp
  · intro p hp hpocc
    by_cases hpq : q = p
    · subst hpq
      exact ⟨j, by omega, by rw [hb]; exact hbocc, by rw [hbq, hb]⟩
    · rw [hbne p hpq] at hpocc ⊢
      obtain ⟨i, hi1, hi2, hi3⟩ := hInv.occ_from p hp hpocc
      exact ⟨i, by omega, hi2, hi3⟩
  · intro i hi hiocc
    by_cases hij : i = j
    · subst hij
      refine ⟨q, hqlt, by rw [hbq, hb], ?_⟩
      apply pathOK_intro t' q d (by rw [hcap']; exact hcappos) (by rw [hcap']; exact hd)
      · rw [hbq, hcap']
        exact hq
      · rw [hmp']
        exact hM2
      · intro e he
        rw [hbq, hcap']
        have hposne : (b.hashcode + e) % base.cap ≠ q := by
          rw [hq]
          exact probe_pos_inj base.cap b.hashcode e d hcappos (by omega) hd (by omega)
        rw [hbne _ hposne.symm]
        exact hpre e he
    · obtain ⟨p, hp, hrec, hpath⟩ := hInv.placed i (by omega) hiocc
      have hpoccA : (bucketAt tAcc p).state = HT_BUCKET_OCCUPIED := by
        rw [hrec]
        exact hiocc
      have hpq : q ≠ p := fun hc => hfree (by rw [hc]; exact hpoccA)
      have hdp_eq : probeDist tAcc.cap (bucketAt tAcc p).hashcode p =
          probeDist base.cap (bucketAt tAcc p).hashcode p := by rw [hInv.capp]
      refine ⟨p, hp, by rw [hbne p hpq]; exact hrec, ?_⟩
      apply pathOK_intro t' p (probeDist base.cap (bucketAt tAcc p).hashcode p)
        (by rw [hcap']; exact hcappos)
        (by rw [hcap']; exact probeDist_lt base.cap _ p hcappos)
      · rw [hbne p hpq, hcap']
        exact (probe_hits base.cap (bucketAt tAcc p).hashcode p hcappos hp).symm
      · rw [hmp']
        have h1 := hpath.1
        rw [hdp_eq] at h1
        omega
      · intro e he
        rw [hbne p hpq, hcap']
        have hold := hpath.2 e (by rw [hdp_eq]; exact he)
        rw [hInv.capp] at hold
        have hposne : ((bucketAt tAcc p).hashcode + e) % base.cap ≠ q := by
          intro hc
          apply hfree
          rw [← hc]
          exact hold
        rw [hbne _ hposne.symm]
        exact hold
  · have hocceq : occCount t' = occCount { tAcc with index := tAcc.index.set q b } := rfl
    rw [hocceq]
    have hbal := occCount_set tAcc q b hqlen
    rw [if_neg hfree, if_pos hbocc] at hbal
    rw [range_countP_succ, if_pos (by rw [hb]; simp [hbocc])]
    have := hInv.occ_card
    omega
  · intro p p2 hp hp2 hne hpocc hp2occ
    by_cases hpq : q = p
    · subst hpq
      rw [hbq] at hpocc ⊢
      rw [hbne p2 hne] at hp2occ ⊢
      obtain ⟨i2, hi21, hi22, hi23⟩ := hInv.occ_from p2 hp2 hp2occ
      rw [hi23, ← hb]
      exact hOldInj j i2 hj (by omega) (by omega) (by rw [hb]; exact hbocc) hi22
    · rw [hbne p hpq] at hpocc ⊢
      by_cases hp2q : q = p2
      · subst hp2q
        rw [hbq] at hp2occ ⊢
        obtain ⟨i1, hi11, hi12, hi13⟩ := hInv.occ_from p hp hpocc
        rw [hi13, ← hb]
        exact hOldInj i1 j (by omega) hj (by omega) hi12 (by rw [hb]; exact hbocc)
      · rw [hbne p2 hp2q] at hp2occ ⊢
        exact hInv.linj p p2 hp hp2 hne hpocc hp2occ

theorem RebuildInv_weaken (oldIdx : List HT_BUCKET_T) (base : HT_T) (j : Nat)
    (tAcc : HT_T) (hInv : RebuildInv oldIdx base j tAcc)
    (hnot : ¬(oldIdx.getD j emptyBucket).state = HT_BUCKET_OCCUPIED) :
    RebuildInv oldIdx base (j + 1) tAcc := by
  refine ⟨hInv.vals, hInv.nn, hInv.ins, hInv.expd, hInv.capp, hInv.ilen, hInv.states,
    ?_, ?_, ?_, hInv.linj⟩
  · intro p hp hpocc
    obtain ⟨i, hi1, hi2, hi3⟩ := hInv.occ_from p hp hpocc
    exact ⟨i, by omega, hi2, hi3⟩
  · intro i hi hiocc
    by_cases hij : i = j
    · subst hij
      exact absurd hiocc hnot
    · exact hInv.placed i (by omega) hiocc
  · rw [range_countP_succ, if_neg (by simpa using hnot)]
    have := hInv.occ_card
    omega

theorem rebuild_fold (oldIdx : List HT_BUCKET_T) (base : HT_T) (k oldCap : Nat)
    (hcapk : base.cap = 2 ^ k)
    (hOldInj : ∀ i i2, i < oldCap → i2 < oldCap → i ≠ i2 →
      (oldIdx.getD i emptyBucket).state = HT_BUCKET_OCCUPIED →
      (oldIdx.getD i2 emptyBucket).state = HT_BUCKET_OCCUPIED →
      (oldIdx.getD i emptyBucket).loc ≠ (oldIdx.getD i2 emptyBucket).loc) :
    ∀ (m j : Nat), j + m = oldCap → oldCap ≤ base.cap → ∀ tAcc, RebuildInv oldIdx base j tAcc →
    RebuildInv oldIdx base oldCap
      (List.foldl (fun tA i =>
        if (oldIdx.getD i emptyBucket).state = HT_BUCKET_OCCUPIED then
          expandProbe (oldIdx.getD i emptyBucket) (oldIdx.getD i emptyBucket).hashcode tA 0
            (tA.cap + 1)
        else tA) tAcc (List.range' j m)) := by
  intro m
  induction m with
  | zero =>
      intro j hjm hOldLe tAcc hInv
      rw [List.range'_zero]
      have : j = oldCap := by omega
      subst this
      exact hInv
  | succ m ih =>
      intro j hjm hOldLe tAcc hInv
      have hj : j < oldCap := by omega
      rw [List.range'_succ]
      show RebuildInv oldIdx base oldCap (List.foldl _ _ (List.range' (j + 1) m))
      have hcappos : 0 < base.cap := by rw [hcapk]; positivity
      have hcapA : tAcc.cap = 2 ^ k := by rw [hInv.capp, hcapk]
      apply ih (j + 1) (by omega) hOldLe
      dsimp only
      by_cases hbocc : (oldIdx.getD j emptyBucket).state = HT_BUCKET_OCCUPIED
      · rw [if_pos hbocc]
        have hocclt : occCount tAcc < tAcc.index.length := by
          rw [hInv.ilen]
          have h1 := hInv.occ_card
          have h2 : (List.range j).countP
              (fun i => (oldIdx.getD i emptyBucket).state = HT_BUCKET_OCCUPIED) ≤ j := by
            have := List.countP_le_length
              (p := fun i => decide ((oldIdx.getD i emptyBucket).state = HT_BUCKET_OCCUPIED))
              (l := List.range j)
            simpa using this
          omega
        obtain ⟨p0, hp0, hp0s⟩ := exists_not_occupied tAcc hocclt
        have hp0' : p0 < tAcc.cap := by
          rw [hInv.capp, ← hInv.ilen]
          exact hp0
        obtain ⟨d, hdlt, hdfree, hdpre⟩ := exists_least_free tAcc
          (oldIdx.getD j emptyBucket).hashcode k hcapA ⟨p0, hp0', hp0s⟩
        have hscan := expandProbe_scan (oldIdx.getD j emptyBucket)
          (oldIdx.getD j emptyBucket).hashcode tAcc d hdfree (tAcc.cap + 1) 0
          (Nat.zero_le d) (by omega) (fun e _ he2 => hdpre e he2)
        rw [hscan]
        have hbridge : ∀ x, HT_CALC_LOC tAcc x = x % base.cap := by
          intro x
          rw [HT_CALC_LOC_eq_mod tAcc x k hcapA, hInv.capp]
        have hdblt : d < base.cap := by
          rw [← hInv.capp]
          exact hdlt
        have hqmod : HT_CALC_LOC tAcc ((oldIdx.getD j emptyBucket).hashcode + d) =
            ((oldIdx.getD j emptyBucket).hashcode + d) % base.cap := hbridge _
        have hfree2 : (bucketAt tAcc
            (HT_CALC_LOC tAcc ((oldIdx.getD j emptyBucket).hashcode + d))).state ≠
            HT_BUCKET_OCCUPIED := hdfree
        have hpre2 : ∀ e, e < d →
            (bucketAt tAcc (((oldIdx.getD j emptyBucket).hashcode + e) % base.cap)).state =
              HT_BUCKET_OCCUPIED := by
          intro e he
          have := hdpre e he
          unfold probeBucket at this
          rw [hbridge] at this
          exact this
        set b := oldIdx.getD j emptyBucket with hbdef
        dsimp only
        split
        · next hgt =>
            exact rebuild_place oldIdx base oldCap hOldInj j hj tAcc hInv b rfl hbocc d
              (HT_CALC_LOC tAcc (b.hashcode + d)) hcappos hdblt hqmod hfree2 hpre2 d
              (by omega) (le_refl d)
        · next hgt =>
            have hng : ¬d > tAcc.max_probe := hgt
            exact rebuild_place oldIdx base oldCap hOldInj j hj tAcc hInv b rfl hbocc d
              (HT_CALC_LOC tAcc (b.hashcode + d)) hcappos hdblt hqmod hfree2 hpre2
              tAcc.max_probe (le_refl _) (by omega)
      · rw [if_neg hbocc]
        exact RebuildInv_weaken oldIdx base j tAcc hInv hbocc

theorem _HT_expand_eq (t : HT_T) :
    _HT_expand t true = some ((List.range t.cap).foldl
      (fun tAcc i =>
        if (t.index.getD i emptyBucket).state = HT_BUCKET_OCCUPIED then
          expandProbe (t.index.getD i emptyBucket) (t.index.getD i emptyBucket).hashcode tAcc 0
            (tAcc.cap + 1)
        else tAcc)
      (expandBase t)) := rfl

theorem expandBase_cap (t : HT_T) : (expandBase t).cap = _HT_round_up (t.cap * 2) := rfl

theorem RebuildInv_base (t : HT_T) : RebuildInv t.index (expandBase t) 0 (expandBase t) := by
  have hEmp : ∀ p, p < (expandBase t).cap → bucketAt (expandBase t) p = emptyBucket := by
    intro p hp
    show (List.replicate (_HT_round_up (t.cap * 2)) emptyBucket).getD p emptyBucket = _
    exact getD_replicate _ _ _ _ hp
  refine ⟨rfl, rfl, rfl, rfl, rfl, ?_, ?_, ?_, ?_, ?_, ?_⟩
  · show (List.replicate (_HT_round_up (t.cap * 2)) emptyBucket).length = _
    simp
    rfl
  · intro p hp
    rw [hEmp p hp]
    right
    rfl
  · intro p hp hpocc
    rw [hEmp p hp] at hpocc
    exact absurd hpocc (by decide)
  · intro i hi
    omega
  · show occCount (expandBase t) = 0
    show (List.replicate (_HT_round_up (t.cap * 2)) emptyBucket).countP _ = 0
    rw [List.countP_replicate, if_neg (by decide)]
  · intro p p2 hp hp2 hne hpocc
    rw [hEmp p hp] at hpocc
    exact absurd hpocc (by decide)

/-- Full characterisation of a successful `_HT_expand` on a table whose
index is well-formed: capacity doubles, the header counters survive, entries
below the old capacity are copied verbatim (the rest zeroed), tombstones are
dropped, and every old OCCUPIED bucket is re-placed verbatim at a position
reachable by the lookup loops. -/
theorem _HT_expand_spec (t : HT_T) (k : Nat) (hcapk : t.cap = 2 ^ k) (hk1 : 1 ≤ k)
    (hilen : t.index.length = t.cap)
    (hOldInj : ∀ i i2, i < t.cap → i2 < t.cap → i ≠ i2 →
      (bucketAt t i).state = HT_BUCKET_OCCUPIED →
      (bucketAt t i2).state = HT_BUCKET_OCCUPIED →
      (bucketAt t i).loc ≠ (bucketAt t i2).loc) :
    ∃ t', _HT_expand t true = some t' ∧
      t'.cap = 2 * t.cap ∧ t'.n = t.n ∧ t'.ins_loc = t.ins_loc ∧
      t'.expand = _HT_calc_expansion t'.cap ∧
      t'.index.length = t'.cap ∧ t'.values.length = t'.cap ∧
      (∀ j, j < t.cap → entryAt t' j = entryAt t j) ∧
      (∀ j, t.cap ≤ j → entryAt t' j = zeroEntry) ∧
      (∀ p, p < t'.cap → (bucketAt t' p).state = HT_BUCKET_OCCUPIED ∨
        (bucketAt t' p).state = HT_EMPTY_BUCKET) ∧
      (∀ p, p < t'.cap → (bucketAt t' p).state = HT_BUCKET_OCCUPIED →
        ∃ i, i < t.cap ∧ (bucketAt t i).state = HT_BUCKET_OCCUPIED ∧
          bucketAt t' p = bucketAt t i) ∧
      (∀ i, i < t.cap → (bucketAt t i).state = HT_BUCKET_OCCUPIED →
        ∃ p, p < t'.cap ∧ bucketAt t' p = bucketAt t i ∧ pathOK t' p) ∧
      occCount t' = occCount t ∧
      (∀ p p2, p < t'.cap → p2 < t'.cap → p ≠ p2 →
        (bucketAt t' p).state = HT_BUCKET_OCCUPIED →
        (bucketAt t' p2).state = HT_BUCKET_OCCUPIED →
        (bucketAt t' p).loc ≠ (bucketAt t' p2).loc) := by
  have hcap2 : t.cap * 2 = 2 ^ (k + 1) := by
    rw [hcapk]
    ring
  have hcapE : (expandBase t).cap = 2 ^ (k + 1) := by
    rw [expandBase_cap, hcap2]
    exact round_up_two_pow (k + 1) (by omega)
  have hlt : t.cap < (expandBase t).cap := by
    rw [hcapE, hcapk]
    exact Nat.pow_lt_pow_right (by norm_num) (by omega)
  have hF := rebuild_fold t.index (expandBase t) (k + 1) t.cap hcapE hOldInj t.cap 0
    (by omega) (by omega) (expandBase t) (RebuildInv_base t)
  rw [← List.range_eq_range'] at hF
  refine ⟨_, _HT_expand_eq t, ?_, hF.nn, hF.ins, ?_, ?_, ?_, ?_, ?_, ?_, ?_, ?_, ?_, ?_⟩
  · rw [hF.capp, hcapE, hcapk]
    ring
  · rw [hF.expd, hF.capp]
    rfl
  · rw [hF.ilen, hF.capp]
  · rw [hF.vals, hF.capp]
    show ((List.range t.cap).foldl _ (List.replicate (_HT_round_up (t.cap * 2)) zeroEntry)).length = _
    rw [copyVals_length]
    simp
    rfl
  · intro j hj
    have hjd : j < (List.replicate (_HT_round_up (t.cap * 2)) zeroEntry).length := by
      simp
      rw [← expandBase_cap]
      omega
    unfold entryAt
    rw [hF.vals]
    show ((List.range t.cap).foldl (fun vs i => vs.set i (t.values.getD i zeroEntry))
      (List.replicate (_HT_round_up (t.cap * 2)) zeroEntry)).getD j zeroEntry =
      t.values.getD j zeroEntry
    rw [List.getD_eq_getElem?_getD, copyVals_getElem? t.values _ t.cap j,
      if_pos ⟨hj, hjd⟩]
    rfl
  · intro j hj
    unfold entryAt
    rw [hF.vals]
    show ((List.range t.cap).foldl (fun vs i => vs.set i (t.values.getD i zeroEntry))
      (List.replicate (_HT_round_up (t.cap * 2)) zeroEntry)).getD j zeroEntry = zeroEntry
    rw [List.getD_eq_getElem?_getD, copyVals_getElem? t.values _ t.cap j,
      if_neg (by omega)]
    rw [List.getElem?_replicate]
    split
    · rfl
    · rfl
  · intro p hp
    rw [hF.capp] at hp
    exact hF.states p hp
  · intro p hp hpocc
    rw [hF.capp] at hp
    obtain ⟨i, hi1, hi2, hi3⟩ := hF.occ_from p hp hpocc
    exact ⟨i, by omega, hi2, hi3⟩
  · intro i hi hiocc
    obtain ⟨p, hp, hrec, hpath⟩ := hF.placed i hi hiocc
    exact ⟨p, by rw [hF.capp]; exact hp, hrec, hpath⟩
  · rw [hF.occ_card]
    unfold occCount
    rw [countP_eq_range_countP (fun b : HT_BUCKET_T => decide (b.state = HT_BUCKET_OCCUPIED))
      emptyBucket t.index, hilen]
  · intro p p2 hp hp2 hne
    rw [hF.capp] at hp hp2
    exact hF.linj p p2 hp hp2 hne

/-- A successful `_HT_expand` preserves the structural invariant, doubling
the capacity and keeping `n` and `ins_loc`. -/
theorem WF__HT_expand (t : HT_T) (hw : WF t) :
    ∃ t', _HT_expand t true = some t' ∧ WF t' ∧ t'.cap = 2 * t.cap ∧ t'.n = t.n ∧
      t'.ins_loc = t.ins_loc := by
  obtain ⟨k, hk4, hcapk⟩ := hw.cap_pow
  have hcappos : 0 < t.cap := by
    rw [hcapk]
    positivity
  have hOldInj : ∀ i i2, i < t.cap → i2 < t.cap → i ≠ i2 →
      (bucketAt t i).state = HT_BUCKET_OCCUPIED →
      (bucketAt t i2).state = HT_BUCKET_OCCUPIED →
      (bucketAt t i).loc ≠ (bucketAt t i2).loc := by
    intro i i2 hi hi2 hne ho1 ho2
    exact hw.loc_inj i i2 hi hi2 hne (by rw [ho1]; decide) (by rw [ho2]; decide)
  obtain ⟨t', heq, hcap', hn', hins', hexp', hilen', hvlen', hentlo, henthi, hstates,
    hocc_from, hplaced, hocc, hlinj⟩ :=
    _HT_expand_spec t k hcapk (by omega) hw.ilen hOldInj
  have hwins := hw.ins_le
  refine ⟨t', heq,
    ⟨hilen', hvlen', ⟨k + 1, by omega, by rw [hcap', hcapk]; ring⟩, hexp',
      by omega, ?_, ?_, ?_, ?_, ?_⟩,
    hcap', hn', hins'⟩
  · rw [hn', hocc]
    exact hw.n_occ
  · intro i hi
    rcases hstates i hi with ho | he
    · left; exact ho
    · right; left; exact he
  · intro i hi hne
    rcases hstates i hi with ho | he
    · obtain ⟨i0, hi0, ho0, heqb⟩ := hocc_from i hi ho
      rw [heqb, hins']
      exact hw.loc_lt i0 hi0 (by rw [ho0]; decide)
    · exact absurd he hne
  · intro i j hi hj hij hnei hnej
    rcases hstates i hi with hoi | hei
    · rcases hstates j hj with hoj | hej
      · exact hlinj i j hi hj hij hoi hoj
      · exact absurd hej hnej
    · exact absurd hei hnei
  · intro j hj
    by_cases hjlt : j < t.cap
    · rw [hentlo j hjlt]
      exact hw.kbuf j hjlt
    · rw [henthi j (by omega)]
      simp [zeroEntry]

/-- The found arm of `HT_remove` preserves the structural invariant. -/
theorem WF_removeHit (t : HT_T) (hw : WF t) (key : List Nat) (key_len h p : Nat)
    (hhit : hitAt t key key_len h p) :
    WF { t with
        values := t.values.set (probeBucket t h p).loc
          ({ k := (entryAt t (probeBucket t h p).loc).k.set 0 0, k_len := 0, v := none }),
        index := t.index.set (HT_CALC_LOC t (h + p))
          ({ probeBucket t h p with state := HT_DELETED_BUCKET, hashcode := 0 }),
        n := t.n - 1 } := by
  have hcappos : 0 < t.cap := by
    obtain ⟨k, -, hk⟩ := hw.cap_pow
    rw [hk]
    positivity
  have hq : HT_CALC_LOC t (h + p) < t.cap := HT_CALC_LOC_lt t _ hcappos
  have hqlen : HT_CALC_LOC t (h + p) < t.index.length := by rw [hw.ilen]; exact hq
  have hocc : (bucketAt t (HT_CALC_LOC t (h + p))).state = HT_BUCKET_OCCUPIED := hhit.1
  have hqne : (bucketAt t (HT_CALC_LOC t (h + p))).state ≠ HT_EMPTY_BUCKET := by
    rw [hocc]
    decide
  have hloc : (bucketAt t (HT_CALC_LOC t (h + p))).loc < t.ins_loc :=
    hw.loc_lt _ hq hqne
  unfold probeBucket
  have hb : ∀ i, bucketAt { t with
      values := t.values.set (bucketAt t (HT_CALC_LOC t (h + p))).loc
        ({ k := (entryAt t (bucketAt t (HT_CALC_LOC t (h + p))).loc).k.set 0 0, k_len := 0, v := none }),
      index := t.index.set (HT_CALC_LOC t (h + p))
        ({ bucketAt t (HT_CALC_LOC t (h + p)) with state := HT_DELETED_BUCKET, hashcode := 0 }),
      n := t.n - 1 } i =
      (t.index.set (HT_CALC_LOC t (h + p))
        ({ bucketAt t (HT_CALC_LOC t (h + p)) with state := HT_DELETED_BUCKET, hashcode := 0 })).getD
        i emptyBucket := fun i => rfl
  refine ⟨?_, ?_, hw.cap_pow, hw.exp_eq, hw.ins_le, ?_, ?_, ?_, ?_, ?_⟩
  · show (t.index.set _ _).length = t.cap
    rw [List.length_set]
    exact hw.ilen
  · show (t.values.set _ _).length = t.cap
    rw [List.length_set]
    exact hw.vlen
  · show t.n - 1 = occCount _
    have hocceq : occCount { t with
        values := t.values.set (bucketAt t (HT_CALC_LOC t (h + p))).loc
          ({ k := (entryAt t (bucketAt t (HT_CALC_LOC t (h + p))).loc).k.set 0 0, k_len := 0, v := none }),
        index := t.index.set (HT_CALC_LOC t (h + p))
          ({ bucketAt t (HT_CALC_LOC t (h + p)) with state := HT_DELETED_BUCKET, hashcode := 0 }),
        n := t.n - 1 } = occCount { t with
        index := t.index.set (HT_CALC_LOC t (h + p))
          ({ bucketAt t (HT_CALC_LOC t (h + p)) with state := HT_DELETED_BUCKET, hashcode := 0 }) } := rfl
    rw [hocceq]
    have hbal := occCount_set t (HT_CALC_LOC t (h + p))
      ({ bucketAt t (HT_CALC_LOC t (h + p)) with state := HT_DELETED_BUCKET, hashcode := 0 }) hqlen
    have hstate : ({ bucketAt t (HT_CALC_LOC t (h + p)) with
        state := HT_DELETED_BUCKET, hashcode := 0 } : HT_BUCKET_T).state =
        HT_DELETED_BUCKET := rfl
    rw [if_pos hocc, hstate, if_neg (by decide)] at hbal
    have hnocc := hw.n_occ
    omega
  · intro i hi
    rw [hb i]
    by_cases hiq : HT_CALC_LOC t (h + p) = i
    · subst hiq
      rw [getD_set_self hqlen]
      right; right
      rfl
    · rw [getD_set_ne hiq]
      exact hw.states i hi
  · intro i hi hne
    rw [hb i] at hne ⊢
    by_cases hiq : HT_CALC_LOC t (h + p) = i
    · subst hiq
      rw [getD_set_self hqlen]
      exact hloc
    · rw [getD_set_ne hiq] at hne ⊢
      exact hw.loc_lt i hi hne
  · intro i j hi hj hij hnei hnej
    rw [hb i] at hnei ⊢
    rw [hb j] at hnej ⊢
    by_cases hiq : HT_CALC_LOC t (h + p) = i
    · subst hiq
      rw [getD_set_self hqlen]
      rw [getD_set_ne hij] at hnej ⊢
      exact hw.loc_inj _ j hq hj hij hqne hnej
    · rw [getD_set_ne hiq] at hnei ⊢
      by_cases hjq : HT_CALC_LOC t (h + p) = j
      · subst hjq
        rw [getD_set_self hqlen]
        exact hw.loc_inj i _ hi hq (fun hc => hiq hc.symm) hnei hqne
      · rw [getD_set_ne hjq] at hnej ⊢
        exact hw.loc_inj i j hi hj hij hnei hnej
  · intro j hj
    show ((t.values.set _ _).getD j zeroEntry).k.length = HT_MAX_KEY_LEN
    have hL : (bucketAt t (HT_CALC_LOC t (h + p))).loc < t.values.length := by
      rw [hw.vlen]
      have := hw.ins_le
      omega
    by_cases hjL : (bucketAt t (HT_CALC_LOC t (h + p))).loc = j
    · subst hjL
      rw [getD_set_self hL]
      show ((entryAt t _).k.set 0 0).length = _
      rw [List.length_set]
      exact hw.kbuf _ (by have := hw.ins_le; omega)
    · rw [getD_set_ne hjL]
      exact hw.kbuf j hj

/-- Every iteration count of the `HT_remove` probe loop preserves the
structural invariant of the table component. -/
theorem WF_removeLoop (key : List Nat) (key_len h : Nat) (t : HT_T) (hw : WF t) :
    ∀ fuel p, WF (removeLoop key key_len h t p fuel).1 := by
  intro fuel
  induction fuel with
  | zero => intro p; exact hw
  | succ fuel ih =>
      intro p
      by_cases hh : hitAt t key key_len h p
      · rw [removeLoop_succ_hit key key_len h t p fuel hh]
        exact WF_removeHit t hw key key_len h p hh
      · by_cases he : emptyAtStep t h p
        · rw [removeLoop_succ_empty key key_len h t p fuel he]
          exact hw
        · rw [removeLoop_succ_skip key key_len h t p fuel hh he]
          exact ih (p + 1)

/-- `HT_remove` preserves the structural invariant. -/
theorem WF_HT_remove (t : HT_T) (hw : WF t) (key : List Nat) (key_len : Nat) :
    WF (HT_remove t key key_len).1 := by
  unfold HT_remove
  by_cases hk : key_len > HT_MAX_KEY_LEN - 1
  · rw [if_pos hk]
    exact hw
  · rw [if_neg hk]
    exact WF_removeLoop key key_len _ t hw _ 0

/-- Every iteration count of the `HT_put` probe loop preserves the
structural invariant, provided the insertion cursor is strictly below
capacity (guaranteed by the pre-resize check). -/
theorem WF_putLoop (key : List Nat) (key_len : Nat) (value : Option Nat) (h : Nat)
    (t : HT_T) (hw : WF t) (hins : t.ins_loc < t.cap) :
    ∀ fuel p, WF (putLoop key key_len value h t p fuel).1 := by
  have hcappos : 0 < t.cap := by
    obtain ⟨k, -, hk⟩ := hw.cap_pow
    rw [hk]
    positivity
  intro fuel
  induction fuel with
  | zero => intro p; exact hw
  | succ fuel ih =>
      intro p
      by_cases hh : hitAt t key key_len h p
      · rw [putLoop_succ_update key key_len value h t p fuel hh]
        refine WF_set_value t hw _ _ ?_
        show (entryAt t (probeBucket t h p).loc).k.length = HT_MAX_KEY_LEN
        have hq : HT_CALC_LOC t (h + p) < t.cap := HT_CALC_LOC_lt t _ hcappos
        have hloc : (probeBucket t h p).loc < t.ins_loc := by
          unfold probeBucket
          have hh1 : (bucketAt t (HT_CALC_LOC t (h + p))).state = HT_BUCKET_OCCUPIED := hh.1
          exact hw.loc_lt _ hq (by rw [hh1]; decide)
        exact hw.kbuf _ (by omega)
      · by_cases hf : freeAtStep t h p
        · rw [putLoop_succ_insert key key_len value h t p fuel hf]
          exact WF_putInsert t hw key key_len value h _ p (HT_CALC_LOC_lt t _ hcappos)
            hf hins
        · have hocc : (probeBucket t h p).state = HT_BUCKET_OCCUPIED := by
            unfold freeAtStep at hf
            exact not_not.mp hf
          rw [putLoop_succ_skip key key_len value h t p fuel hocc hh]
          exact ih (p + 1)

/-- `HT_put` preserves the structural invariant (any allocation outcome). -/
theorem WF_HT_put (t : HT_T) (hw : WF t) (key : List Nat) (key_len : Nat)
    (value : Option Nat) (allocOk : Bool) :
    WF (HT_put t key key_len value allocOk).1 := by
  have hcappos : 0 < t.cap := by
    obtain ⟨k, -, hk⟩ := hw.cap_pow
    rw [hk]
    positivity
  unfold HT_put
  by_cases hk : key_len > HT_MAX_KEY_LEN - 1
  · rw [if_pos hk]
    exact hw
  · rw [if_neg hk]
    dsimp only
    by_cases htrig : t.n > t.expand ∨ t.n = t.cap ∨ t.ins_loc = t.cap
    · rw [if_pos htrig]
      cases allocOk with
      | false =>
          show WF (match (_HT_expand t false : Option HT_T) with
            | none => (t, (none : Option (Option Nat)))
            | some t1 => putLoop key key_len value (_HT_hash key key_len) t1 0 (t1.cap + 1)).1
          exact hw
      | true =>
          obtain ⟨t', heq, hw', hcap', hn', hins'⟩ := WF__HT_expand t hw
          rw [heq]
          refine WF_putLoop key key_len value _ t' hw' ?_ _ 0
          have := hw.ins_le
          omega
    · rw [if_neg htrig]
      push_neg at htrig
      refine WF_putLoop key key_len value _ t hw ?_ _ 0
      have h1 := hw.ins_le
      have h2 := htrig.2.2
      omega

/-- Every reachable table satisfies the structural invariant. -/
theorem Reach_WF (t : HT_T) (hr : Reach t) : WF t := by
  induction hr with
  | new req => exact WF_new req
  | put t0 key key_len value allocOk _ _ ih => exact WF_HT_put t0 ih key key_len value allocOk
  | remove t0 key key_len _ _ ih => exact WF_HT_remove t0 ih key key_len

/-- Pigeonhole on the non-EMPTY buckets: their `loc` fields are distinct
values below `m < cap`, so some bucket must be EMPTY. -/
theorem exists_empty_of_locs (t : HT_T) (m : Nat)
    (hloc : ∀ i, i < t.cap → (bucketAt t i).state ≠ HT_EMPTY_BUCKET →
      (bucketAt t i).loc < m)
    (hinj : ∀ i j, i < t.cap → j < t.cap → i ≠ j →
      (bucketAt t i).state ≠ HT_EMPTY_BUCKET →
      (bucketAt t j).state ≠ HT_EMPTY_BUCKET →
      (bucketAt t i).loc ≠ (bucketAt t j).loc)
    (hm : m < t.cap) :
    ∃ p, p < t.cap ∧ (bucketAt t p).state = HT_EMPTY_BUCKET := by
  by_contra hno
  push_neg at hno
  have hmaps : ∀ i ∈ Finset.range t.cap, (bucketAt t i).loc ∈ Finset.range m := by
    intro i hi
    rw [Finset.mem_range] at hi
    rw [Finset.mem_range]
    exact hloc i hi (hno i hi)
  have hinj2 : Set.InjOn (fun i => (bucketAt t i).loc) (Finset.range t.cap) := by
    intro i hi j hj hij
    rw [Finset.coe_range, Set.mem_Iio] at hi hj
    by_contra hne
    exact hinj i j hi hj hne (hno i hi) (hno j hj) hij
  have := Finset.card_le_card_of_injOn (fun i => (bucketAt t i).loc) hmaps hinj2
  simp at this
  omega

/-- A conditional-increment fold counts the elements satisfying the
condition. -/
theorem foldl_if_count {α : Type _} (P : α → Prop) [DecidablePred P] :
    ∀ (l : List α) (a : Nat),
      l.foldl (fun acc x => if P x then acc + 1 else acc) a =
        a + l.countP (fun x => decide (P x)) := by
  intro l
  induction l with
  | nil => intro a; simp
  | cons x xs ih =>
      intro a
      show xs.foldl _ (if P x then a + 1 else a) = _
      rw [ih, List.countP_cons]
      by_cases h : P x
      · rw [if_pos h]
        simp [h]
        omega
      · rw [if_neg h]
        simp [h]

/-- `HT_free_dealloc_count` counts the OCCUPIED buckets with a non-null
stored value handle. -/
theorem HT_free_dealloc_count_eq (t : HT_T) :
    HT_free_dealloc_count t = (List.range t.cap).countP
      (fun i => decide ((bucketAt t i).state = HT_BUCKET_OCCUPIED ∧
        (entryAt t (bucketAt t i).loc).v ≠ none)) := by
  unfold HT_free_dealloc_count
  dsimp only
  rw [foldl_if_count (fun i => (bucketAt t i).state = HT_BUCKET_OCCUPIED ∧
    (entryAt t (bucketAt t i).loc).v ≠ none) (List.range t.cap) 0]
  omega

/-- Claim C10: in every table state reachable from construction through any
sequence of `put` / `remove` operations (including triggered resizes), the
count field `n` equals the number of OCCUPIED buckets of the index array. -/
theorem C10_count_is_occupied_buckets (t : HT_T) (hr : Reach t) :
    t.n = occCount t :=
  (Reach_WF t hr).n_occ

theorem C10_count_is_occupied_buckets_witness : tblDup.n = occCount tblDup :=
  C10_count_is_occupied_buckets tblDup
    (Reach_applyOps opsDup (HT_new 16) (Reach.new 16) (by decide))

/-- Claim C3 (amended): in every reachable table whose insertion cursor
`ins_loc` is strictly below `cap` (rather than whenever `n < cap`), at least
one index bucket is EMPTY; the non-EMPTY buckets hold pairwise-distinct
entry slots below `ins_loc`, so fewer than `cap` of them exist. -/
theorem C3_empty_bucket_when_cursor_below_cap (t : HT_T) (hr : Reach t)
    (hins : t.ins_loc < t.cap) :
    ∃ p, p < t.cap ∧ (bucketAt t p).state = HT_EMPTY_BUCKET := by
  have hw := Reach_WF t hr
  exact exists_empty_of_locs t t.ins_loc hw.loc_lt hw.loc_inj hins

theorem C3_empty_bucket_when_cursor_below_cap_witness :
    (HT_new 16).ins_loc < (HT_new 16).cap ∧
      ∃ p, p < (HT_new 16).cap ∧ (bucketAt (HT_new 16) p).state = HT_EMPTY_BUCKET :=
  ⟨by decide, C3_empty_bucket_when_cursor_below_cap (HT_new 16) (Reach.new 16) (by decide)⟩

/-- Claim C9 (amended): destroying a reachable table calls the deallocator
once per OCCUPIED bucket whose stored value handle is non-null; when every
OCCUPIED bucket's value is non-null this equals `n`, the live count. -/
theorem C9_dealloc_count_n_when_values_nonnull (t : HT_T) (hr : Reach t)
    (hnn : ∀ i < t.cap, (bucketAt t i).state = HT_BUCKET_OCCUPIED →
      (entryAt t (bucketAt t i).loc).v ≠ none) :
    HT_free_dealloc_count t = t.n := by
  have hw := Reach_WF t hr
  rw [HT_free_dealloc_count_eq, hw.n_occ]
  have hc : (List.range t.cap).countP
      (fun i => decide ((bucketAt t i).state = HT_BUCKET_OCCUPIED ∧
        (entryAt t (bucketAt t i).loc).v ≠ none)) =
      (List.range t.cap).countP
      (fun i => decide ((bucketAt t i).state = HT_BUCKET_OCCUPIED)) := by
    refine List.countP_congr ?_
    intro i hi
    rw [List.mem_range] at hi
    simp only [decide_eq_true_eq]
    constructor
    · intro hx
      exact hx.1
    · intro hx
      exact ⟨hx, hnn i hi hx⟩
  rw [hc]
  unfold occCount
  rw [countP_eq_range_countP (fun b : HT_BUCKET_T => decide (b.state = HT_BUCKET_OCCUPIED))
    emptyBucket t.index, hw.ilen]
  rfl

theorem C9_dealloc_count_n_when_values_nonnull_witness :
    (∀ i < tblDup.cap, (bucketAt tblDup i).state = HT_BUCKET_OCCUPIED →
      (entryAt tblDup (bucketAt tblDup i).loc).v ≠ none) ∧
    HT_free_dealloc_count tblDup = tblDup.n :=
  ⟨by decide,
    C9_dealloc_count_n_when_values_nonnull tblDup
      (Reach_applyOps opsDup (HT_new 16) (Reach.new 16) (by decide)) (by decide)⟩

/-- After the found arm of `HT_remove` tombstones the unique bucket matching
`key`, no probe step of the lookup loops matches `key` any more. -/
theorem removeHit_no_match (t : HT_T) (hw : WF t) (key : List Nat) (key_len d : Nat)
    (hhit : hitAt t key key_len (_HT_hash key key_len) d)
    (huniq : ∀ i < t.cap, ∀ j < t.cap, matchesKeyAt t key key_len i →
      matchesKeyAt t key key_len j → i = j) :
    ∀ e, ¬hitAt { t with
        values := t.values.set (probeBucket t (_HT_hash key key_len) d).loc
          ({ k := (entryAt t (probeBucket t (_HT_hash key key_len) d).loc).k.set 0 0,
             k_len := 0, v := none }),
        index := t.index.set (HT_CALC_LOC t (_HT_hash key key_len + d))
          ({ probeBucket t (_HT_hash key key_len) d with
             state := HT_DELETED_BUCKET, hashcode := 0 }),
        n := t.n - 1 } key key_len (_HT_hash key key_len) e := by
  have hcappos : 0 < t.cap := by
    obtain ⟨k, -, hk⟩ := hw.cap_pow
    rw [hk]
    positivity
  have hq : HT_CALC_LOC t (_HT_hash key key_len + d) < t.cap := HT_CALC_LOC_lt t _ hcappos
  have hqlen2 : HT_CALC_LOC t (_HT_hash key key_len + d) < t.index.length := by
    rw [hw.ilen]
    exact hq
  have hqocc : (bucketAt t (HT_CALC_LOC t (_HT_hash key key_len + d))).state =
      HT_BUCKET_OCCUPIED := hhit.1
  have hqne : (bucketAt t (HT_CALC_LOC t (_HT_hash key key_len + d))).state ≠
      HT_EMPTY_BUCKET := by
    rw [hqocc]
    decide
  have hmq : matchesKeyAt t key key_len (HT_CALC_LOC t (_HT_hash key key_len + d)) := by
    obtain ⟨h1, h2, h3, h4⟩ := hhit
    exact ⟨h1, h2, h3, h4⟩
  intro e
  set t2 := { t with
      values := t.values.set (probeBucket t (_HT_hash key key_len) d).loc
        ({ k := (entryAt t (probeBucket t (_HT_hash key key_len) d).loc).k.set 0 0,
           k_len := 0, v := none }),
      index := t.index.set (HT_CALC_LOC t (_HT_hash key key_len + d))
        ({ probeBucket t (_HT_hash key key_len) d with
           state := HT_DELETED_BUCKET, hashcode := 0 }),
      n := t.n - 1 } with ht2
  intro hhit2
  obtain ⟨g1, g2, g3, g4⟩ := hhit2
  unfold probeBucket at g1 g2 g3 g4
  have hcl2 : HT_CALC_LOC t2 (_HT_hash key key_len + e) =
      HT_CALC_LOC t (_HT_hash key key_len + e) := by
    rw [ht2]
    rfl
  rw [hcl2] at g1 g2 g3 g4
  have hb2 : ∀ i, bucketAt t2 i =
      (t.index.set (HT_CALC_LOC t (_HT_hash key key_len + d))
        ({ probeBucket t (_HT_hash key key_len) d with
           state := HT_DELETED_BUCKET, hashcode := 0 })).getD i emptyBucket := by
    intro i
    rw [ht2]
    rfl
  rw [hb2] at g1 g2 g3 g4
  by_cases hq2q : HT_CALC_LOC t (_HT_hash key key_len + e) =
      HT_CALC_LOC t (_HT_hash key key_len + d)
  · rw [hq2q, getD_set_self hqlen2] at g1
    have hst : ({ probeBucket t (_HT_hash key key_len) d with
        state := HT_DELETED_BUCKET, hashcode := 0 } : HT_BUCKET_T).state =
        HT_DELETED_BUCKET := rfl
    rw [hst] at g1
    exact absurd g1 (by decide)
  · have hq2 : HT_CALC_LOC t (_HT_hash key key_len + e) < t.cap := HT_CALC_LOC_lt t _ hcappos
    rw [getD_set_ne (fun hc => hq2q hc.symm)] at g1 g2 g3 g4
    have hocc2 : (bucketAt t (HT_CALC_LOC t (_HT_hash key key_len + e))).state =
        HT_BUCKET_OCCUPIED := g1
    have hlocne : (probeBucket t (_HT_hash key key_len) d).loc ≠
        (t.index.getD (HT_CALC_LOC t (_HT_hash key key_len + e)) emptyBucket).loc := by
      unfold probeBucket
      exact hw.loc_inj _ _ hq hq2 (fun hc => hq2q hc.symm) hqne (by rw [hocc2]; decide)
    have he2 : entryAt t2
        (t.index.getD (HT_CALC_LOC t (_HT_hash key key_len + e)) emptyBucket).loc =
        entryAt t
        (t.index.getD (HT_CALC_LOC t (_HT_hash key key_len + e)) emptyBucket).loc := by
      rw [ht2]
      show (t.values.set (probeBucket t (_HT_hash key key_len) d).loc _).getD _ zeroEntry = _
      rw [getD_set_ne hlocne]
      rfl
    rw [he2] at g3 g4
    have hmk : matchesKeyAt t key key_len (HT_CALC_LOC t (_HT_hash key key_len + e)) :=
      ⟨g1, g2, g3, g4⟩
    exact hq2q (huniq _ hq2 _ hq hmk hmq)

/-- Claim C2 (amended): for a reachable table in which key `k` is present per
`HT_exists` and exactly one index bucket matches `k`, `HT_remove` returns
that binding's stored value, and afterwards `HT_exists` is false, `HT_get`
is null, and `n` has decreased by exactly one.  (Without the uniqueness
hypothesis the claim fails: tombstone reuse can bind the same key twice.) -/
theorem C2_remove_unique_binding (t : HT_T) (key : List Nat) (key_len : Nat)
    (hr : Reach t) (hkl : ¬key_len > HT_MAX_KEY_LEN - 1)
    (hex : HT_exists t key key_len = true)
    (huniq : ∀ i < t.cap, ∀ j < t.cap, matchesKeyAt t key key_len i →
      matchesKeyAt t key key_len j → i = j) :
    1 ≤ t.n ∧
    (HT_remove t key key_len).1.n = t.n - 1 ∧
    (∃ p, p < t.cap ∧ matchesKeyAt t key key_len p ∧
      (HT_remove t key key_len).2 = some (entryAt t (bucketAt t p).loc).v) ∧
    HT_exists (HT_remove t key key_len).1 key key_len = false ∧
    HT_get (HT_remove t key key_len).1 key key_len = none := by
  have hw := Reach_WF t hr
  have hcappos : 0 < t.cap := by
    obtain ⟨k, -, hk⟩ := hw.cap_pow
    rw [hk]
    positivity
  unfold HT_exists at hex
  rw [if_neg hkl] at hex
  obtain ⟨d, -, hdlt, hhit, hpre⟩ :=
    existsLoop_true_elim key key_len (_HT_hash key key_len) t (t.max_probe + 1) 0 hex
  have hq : HT_CALC_LOC t (_HT_hash key key_len + d) < t.cap := HT_CALC_LOC_lt t _ hcappos
  have hqlen2 : HT_CALC_LOC t (_HT_hash key key_len + d) < t.index.length := by
    rw [hw.ilen]
    exact hq
  have hqocc : (bucketAt t (HT_CALC_LOC t (_HT_hash key key_len + d))).state =
      HT_BUCKET_OCCUPIED := hhit.1
  have hmq : matchesKeyAt t key key_len (HT_CALC_LOC t (_HT_hash key key_len + d)) := by
    obtain ⟨h1, h2, h3, h4⟩ := hhit
    exact ⟨h1, h2, h3, h4⟩
  have hre : HT_remove t key key_len =
      removeLoop key key_len (_HT_hash key key_len) t 0 (t.max_probe + 1) := by
    unfold HT_remove
    rw [if_neg hkl]
  have hrem := removeLoop_found key key_len (_HT_hash key key_len) t d hhit
    (t.max_probe + 1) 0 (by omega) (by omega) (fun e he1 he2 => hpre e he1 he2)
  have hnone2 := removeHit_no_match t hw key key_len d hhit huniq
  have htn1 : 1 ≤ t.n := by
    have hbeq : bucketAt t (HT_CALC_LOC t (_HT_hash key key_len + d)) =
        t.index[HT_CALC_LOC t (_HT_hash key key_len + d)] := by
      unfold bucketAt
      rw [List.getD_eq_getElem?_getD, List.getElem?_eq_getElem hqlen2]
      rfl
    have hocc1 : 0 < t.index.countP (fun b => decide (b.state = HT_BUCKET_OCCUPIED)) := by
      rw [List.countP_pos_iff]
      refine ⟨t.index[HT_CALC_LOC t (_HT_hash key key_len + d)],
        List.getElem_mem hqlen2, ?_⟩
      simp only [decide_eq_true_eq]
      rw [← hbeq]
      exact hqocc
    have hn := hw.n_occ
    unfold occCount at hn
    omega
  refine ⟨htn1, ?_, ?_, ?_, ?_⟩
  · rw [hre, hrem]
  · refine ⟨HT_CALC_LOC t (_HT_hash key key_len + d), hq, hmq, ?_⟩
    rw [hre, hrem]
    rfl
  · rw [hre, hrem]
    unfold HT_exists
    rw [if_neg hkl]
    exact existsLoop_none key key_len (_HT_hash key key_len) _ hnone2 _ 0
  · rw [hre, hrem]
    unfold HT_get
    rw [if_neg hkl]
    exact getLoop_none key key_len (_HT_hash key key_len) _ hnone2 _ 0

theorem C2_remove_unique_binding_witness :
    1 ≤ tblOne.n ∧
    (HT_remove tblOne [97] 1).1.n = tblOne.n - 1 ∧
    (∃ p, p < tblOne.cap ∧ matchesKeyAt tblOne [97] 1 p ∧
      (HT_remove tblOne [97] 1).2 = some (entryAt tblOne (bucketAt tblOne p).loc).v) ∧
    HT_exists (HT_remove tblOne [97] 1).1 [97] 1 = false ∧
    HT_get (HT_remove tblOne [97] 1).1 [97] 1 = none :=
  C2_remove_unique_binding tblOne [97] 1
    (Reach.put (HT_new 16) [97] 1 (some 5) true (Reach.new 16) (by decide))
    (by decide) (by decide) (by decide)

theorem expandProbe_cap (b : HT_BUCKET_T) (h : Nat) :
    ∀ fuel (t : HT_T) p, (expandProbe b h t p fuel).cap = t.cap := by
  intro fuel
  induction fuel with
  | zero => intro t p; rfl
  | succ fuel ih =>
      intro t p
      unfold expandProbe
      dsimp only
      by_cases hfree : (bucketAt t (HT_CALC_LOC t (h + p))).state ≠ HT_BUCKET_OCCUPIED
      · rw [if_pos hfree]
        split
        · rfl
        · rfl
      · rw [if_neg hfree]
        exact ih t (p + 1)

/-- The index-rebuild fold of `_HT_expand` never changes the capacity. -/
theorem rebuildFold_cap (oldIdx : List HT_BUCKET_T) :
    ∀ (l : List Nat) (tAcc : HT_T),
      (l.foldl (fun tA i =>
        if (oldIdx.getD i emptyBucket).state = HT_BUCKET_OCCUPIED then
          expandProbe (oldIdx.getD i emptyBucket) (oldIdx.getD i emptyBucket).hashcode tA 0
            (tA.cap + 1)
        else tA) tAcc).cap = tAcc.cap := by
  intro l
  induction l with
  | nil => intro tAcc; rfl
  | cons x xs ih =>
      intro tAcc
      rw [List.foldl_cons, ih]
      split
      · exact expandProbe_cap _ _ _ _ _
      · rfl

/-- A successful `_HT_expand` always installs capacity
`_HT_round_up (cap * 2)` — there is no clamp at `HT_MAX_CAPACITY`. -/
theorem _HT_expand_cap (t t' : HT_T) (heq : _HT_expand t true = some t') :
    t'.cap = _HT_round_up (t.cap * 2) := by
  rw [_HT_expand_eq t] at heq
  have h1 := Option.some.inj heq
  rw [← h1, rebuildFold_cap]
  rfl

/-- Claim C7 (refuted): `_HT_expand` computes `_HT_round_up(cap * 2)` with no
clamp at `HT_MAX_CAPACITY`, so expanding a table already at the maximum
capacity `2^30` produces capacity `2^31 > HT_MAX_CAPACITY`, violating the
claimed invariant `cap ≤ MAX_CAPACITY`. -/
theorem C7_expand_exceeds_max_capacity (t : HT_T) (hcap : t.cap = HT_MAX_CAPACITY) :
    ∃ t', _HT_expand t true = some t' ∧ t'.cap = 2 * HT_MAX_CAPACITY ∧
      HT_MAX_CAPACITY < t'.cap := by
  have h2 : _HT_round_up (t.cap * 2) = 2 ^ 31 := by
    rw [hcap, HT_MAX_CAPACITY_eq]
    have h3 : (2:Nat) ^ 30 * 2 = 2 ^ 31 := by norm_num
    rw [h3, round_up_two_pow 31 (by omega)]
  refine ⟨_, _HT_expand_eq t, ?_, ?_⟩
  · rw [rebuildFold_cap, expandBase_cap, h2, HT_MAX_CAPACITY_eq]
    norm_num
  · rw [rebuildFold_cap, expandBase_cap, h2, HT_MAX_CAPACITY_eq]
    norm_num

theorem C7_expand_exceeds_max_capacity_witness :
    ({ HT_new 16 with cap := 2 ^ 30 } : HT_T).cap = HT_MAX_CAPACITY ∧
    ∃ t', _HT_expand { HT_new 16 with cap := 2 ^ 30 } true = some t' ∧
      t'.cap = 2 * HT_MAX_CAPACITY ∧ HT_MAX_CAPACITY < t'.cap :=
  ⟨by decide, C7_expand_exceeds_max_capacity { HT_new 16 with cap := 2 ^ 30 } (by decide)⟩

/-- Claim C4: when `HT_put` is called with a key that is already stored at
probe step `d2`, but a DELETED (tombstone) bucket occurs at the strictly
earlier probe step `d1` of the same probe path (every step before `d1` being
OCCUPIED without matching), the put inserts a second independent binding for
the key at the tombstoned bucket and increments `n`: afterwards the key
matches at two distinct index positions. -/
theorem C4_tombstone_reuse_duplicates_key (t : HT_T) (key : List Nat) (key_len : Nat)
    (value : Option Nat) (allocOk : Bool) (d1 d2 : Nat)
    (hkl : ¬key_len > HT_MAX_KEY_LEN - 1)
    (hnotrig : ¬(t.n > t.expand ∨ t.n = t.cap ∨ t.ins_loc = t.cap))
    (hcap0 : 0 < t.cap)
    (hil : t.index.length = t.cap)
    (hvl : t.values.length = t.cap)
    (hd12 : d1 < d2) (hd1cap : d1 ≤ t.cap)
    (hdel : (bucketAt t (HT_CALC_LOC t (_HT_hash key key_len + d1))).state =
      HT_DELETED_BUCKET)
    (hhit2 : hitAt t key key_len (_HT_hash key key_len) d2)
    (hpre : ∀ e < d1,
      (bucketAt t (HT_CALC_LOC t (_HT_hash key key_len + e))).state =
        HT_BUCKET_OCCUPIED ∧ ¬hitAt t key key_len (_HT_hash key key_len) e)
    (hqne : HT_CALC_LOC t (_HT_hash key key_len + d1) ≠
      HT_CALC_LOC t (_HT_hash key key_len + d2))
    (hlocne : (bucketAt t (HT_CALC_LOC t (_HT_hash key key_len + d1))).loc ≠
      (bucketAt t (HT_CALC_LOC t (_HT_hash key key_len + d2))).loc)
    (hloc1 : (bucketAt t (HT_CALC_LOC t (_HT_hash key key_len + d1))).loc < t.cap)
    (hkv : validKey key) (hklen : key.length = key_len)
    (hbuf : (entryAt t (bucketAt t (HT_CALC_LOC t (_HT_hash key key_len + d1))).loc).k.length =
      HT_MAX_KEY_LEN) :
    (HT_put t key key_len value allocOk).2 = some value ∧
    (HT_put t key key_len value allocOk).1.n = t.n + 1 ∧
    matchesKeyAt (HT_put t key key_len value allocOk).1 key key_len
      (HT_CALC_LOC t (_HT_hash key key_len + d1)) ∧
    matchesKeyAt (HT_put t key key_len value allocOk).1 key key_len
      (HT_CALC_LOC t (_HT_hash key key_len + d2)) ∧
    HT_CALC_LOC t (_HT_hash key key_len + d1) ≠
      HT_CALC_LOC t (_HT_hash key key_len + d2) := by
  subst hklen
  have hkl31 : key.length ≤ 31 := by
    have hmk : HT_MAX_KEY_LEN = 32 := rfl
    omega
  have hfree : freeAtStep t (_HT_hash key key.length) d1 := by
    show (bucketAt t (HT_CALC_LOC t (_HT_hash key key.length + d1))).state ≠ HT_BUCKET_OCCUPIED
    rw [hdel]
    decide
  have hscan := putLoop_insert_scan key key.length value (_HT_hash key key.length) t d1 hfree
    (t.cap + 1) 0 (by omega) (by omega) (fun e _ he2 => hpre e he2)
  have hres : HT_put t key key.length value allocOk =
      (putInsert t key key.length value (_HT_hash key key.length)
        (HT_CALC_LOC t (_HT_hash key key.length + d1)) d1, some value) := by
    unfold HT_put
    rw [if_neg hkl]
    dsimp only
    rw [if_neg hnotrig]
    exact hscan
  have h1 : (HT_put t key key.length value allocOk).1 =
      putInsert t key key.length value (_HT_hash key key.length)
        (HT_CALC_LOC t (_HT_hash key key.length + d1)) d1 := by
    rw [hres]
  have hpi := putInsert_deleted t key key.length value (_HT_hash key key.length)
    (HT_CALC_LOC t (_HT_hash key key.length + d1)) d1 hdel
  have hq1il : HT_CALC_LOC t (_HT_hash key key.length + d1) < t.index.length := by
    rw [hil]
    exact HT_CALC_LOC_lt t _ hcap0
  have hq2il : HT_CALC_LOC t (_HT_hash key key.length + d2) < t.index.length := by
    rw [hil]
    exact HT_CALC_LOC_lt t _ hcap0
  have hloc1v : (bucketAt t (HT_CALC_LOC t (_HT_hash key key.length + d1))).loc <
      t.values.length := by
    rw [hvl]
    exact hloc1
  have hb1 : bucketAt (putInsert t key key.length value (_HT_hash key key.length)
      (HT_CALC_LOC t (_HT_hash key key.length + d1)) d1)
      (HT_CALC_LOC t (_HT_hash key key.length + d1)) =
      ({ hashcode := _HT_hash key key.length,
         loc := (bucketAt t (HT_CALC_LOC t (_HT_hash key key.length + d1))).loc,
         state := HT_BUCKET_OCCUPIED } : HT_BUCKET_T) := by
    rw [hpi]
    exact getD_set_self hq1il
  have hb2 : bucketAt (putInsert t key key.length value (_HT_hash key key.length)
      (HT_CALC_LOC t (_HT_hash key key.length + d1)) d1)
      (HT_CALC_LOC t (_HT_hash key key.length + d2)) =
      bucketAt t (HT_CALC_LOC t (_HT_hash key key.length + d2)) := by
    rw [hpi]
    exact getD_set_ne hqne
  have he1 : entryAt (putInsert t key key.length value (_HT_hash key key.length)
      (HT_CALC_LOC t (_HT_hash key key.length + d1)) d1)
      (bucketAt t (HT_CALC_LOC t (_HT_hash key key.length + d1))).loc =
      ({ k := (strncpyList
            (entryAt t (bucketAt t (HT_CALC_LOC t (_HT_hash key key.length + d1))).loc).k
            key key.length).set (key.length + 1) 0,
         k_len := key.length, v := value } : HT_ENTRY_T) := by
    rw [hpi]
    exact getD_set_self hloc1v
  have he2 : entryAt (putInsert t key key.length value (_HT_hash key key.length)
      (HT_CALC_LOC t (_HT_hash key key.length + d1)) d1)
      (bucketAt t (HT_CALC_LOC t (_HT_hash key key.length + d2))).loc =
      entryAt t (bucketAt t (HT_CALC_LOC t (_HT_hash key key.length + d2))).loc := by
    rw [hpi]
    exact getD_set_ne hlocne
  refine ⟨?_, ?_, ?_, ?_, hqne⟩
  · rw [hres]
  · rw [h1, hpi]
  · refine ⟨?_, ?_, ?_, ?_⟩
    · rw [h1, hb1]
    · rw [h1, hb1]
    · rw [h1, hb1]
      show (entryAt (putInsert t key key.length value (_HT_hash key key.length)
        (HT_CALC_LOC t (_HT_hash key key.length + d1)) d1)
        (bucketAt t (HT_CALC_LOC t (_HT_hash key key.length + d1))).loc).k_len = key.length
      rw [he1]
    · rw [h1, hb1]
      show strncmp key (entryAt (putInsert t key key.length value (_HT_hash key key.length)
        (HT_CALC_LOC t (_HT_hash key key.length + d1)) d1)
        (bucketAt t (HT_CALC_LOC t (_HT_hash key key.length + d1))).loc).k key.length = 0
      rw [he1]
      refine strncmp_prefix key _ hkv ?_ ?_
      · rw [List.length_set, strncpyList_length, hbuf]
        show key.length ≤ 32
        omega
      · intro j hj
        rw [getD_set_ne (by omega : key.length + 1 ≠ j), List.getD_eq_getElem?_getD,
          strncpyList_getElem?, if_pos ⟨by omega, by rw [hbuf]; show j < 32; omega⟩]
        rfl
  · refine ⟨?_, ?_, ?_, ?_⟩
    · rw [h1, hb2]
      exact hhit2.1
    · rw [h1, hb2]
      exact hhit2.2.1
    · rw [h1, hb2, he2]
      exact hhit2.2.2.1
    · rw [h1, hb2, he2]
      exact hhit2.2.2.2

theorem C4_tombstone_reuse_duplicates_key_witness :
    (HT_put tblPre [113] 1 (some 30) true).2 = some (some 30) ∧
    (HT_put tblPre [113] 1 (some 30) true).1.n = tblPre.n + 1 ∧
    matchesKeyAt (HT_put tblPre [113] 1 (some 30) true).1 [113] 1
      (HT_CALC_LOC tblPre (_HT_hash [113] 1 + 0)) ∧
    matchesKeyAt (HT_put tblPre [113] 1 (some 30) true).1 [113] 1
      (HT_CALC_LOC tblPre (_HT_hash [113] 1 + 1)) ∧
    HT_CALC_LOC tblPre (_HT_hash [113] 1 + 0) ≠ HT_CALC_LOC tblPre (_HT_hash [113] 1 + 1) :=
  C4_tombstone_reuse_duplicates_key tblPre [113] 1 (some 30) true 0 1
    (by decide) (by decide) (by decide) (by decide) (by decide) (by decide) (by decide)
    (by decide) (by decide)
    (by intro e he; omega)
    (by decide) (by decide) (by decide) (by decide) (by decide) (by decide)

/-! ### The pure-put invariant: foundations for the round-trip claim -/

theorem calc_exp_pow (k : Nat) (hk : 2 ≤ k) :
    _HT_calc_expansion (2 ^ k) = 3 * 2 ^ (k - 2) := by
  unfold _HT_calc_expansion
  have e : 2 ^ (k - 2) * 4 = 2 ^ k := by
    rw [show (4:Nat) = 2 ^ 2 from by norm_num, ← pow_add]
    congr 1
    omega
  have h1 : 2 ^ k * 3 = 3 * 2 ^ (k - 2) * 4 := by
    rw [← e]
    ring
  rw [h1, Nat.mul_div_cancel _ (by norm_num)]

theorem pairwise_keys_eq (kvs : List (List Nat × Option Nat))
    (h : kvs.Pairwise (fun a b => a.1 ≠ b.1)) :
    ∀ x ∈ kvs, ∀ y ∈ kvs, x.1 = y.1 → x = y := by
  induction kvs with
  | nil => intro x hx; exact absurd hx (List.not_mem_nil x)
  | cons a l ih =>
      rw [List.pairwise_cons] at h
      intro x hx y hy hxy
      rcases List.mem_cons.mp hx with hxa | hxl
      · rcases List.mem_cons.mp hy with hya | hyl
        · rw [hxa, hya]
        · subst hxa
          exact absurd hxy (h.1 y hyl)
      · rcases List.mem_cons.mp hy with hya | hyl
        · subst hya
          exact absurd hxy.symm (h.1 x hxl)
        · exact ih h.2 x hxl y hyl hxy

/-- The bounds `PutInv` gives on the counters: the table is never full and
a doubled capacity keeps one more insert below the threshold. -/
theorem PutInv_room (t : HT_T) (kvs : List (List Nat × Option Nat)) (hp : PutInv t kvs) :
    t.n < t.cap ∧ t.ins_loc < t.cap ∧ t.n + 1 ≤ _HT_calc_expansion (2 * t.cap) := by
  obtain ⟨k, hk4, hcap⟩ := hp.cap_pow
  have hexp := hp.exp_eq
  have hce : _HT_calc_expansion t.cap = 3 * 2 ^ (k - 2) := by
    rw [hcap]
    exact calc_exp_pow k (by omega)
  have hce2 : _HT_calc_expansion (2 * t.cap) = 3 * 2 ^ (k - 1) := by
    rw [hcap, show 2 * 2 ^ k = 2 ^ (k + 1) from by ring,
      calc_exp_pow (k + 1) (by omega), show k + 1 - 2 = k - 1 from by omega]
  have e : 2 ^ (k - 2) * 4 = 2 ^ k := by
    rw [show (4:Nat) = 2 ^ 2 from by norm_num, ← pow_add]
    congr 1
    omega
  have hpow : 2 ^ k = 4 * 2 ^ (k - 2) := by
    rw [← e]
    ring
  have e2 : 2 ^ (k - 2) * 2 = 2 ^ (k - 1) := by
    rw [← pow_succ]
    congr 1
    omega
  have hpow2 : 2 ^ (k - 1) = 2 * 2 ^ (k - 2) := by
    rw [← e2]
    ring
  have h4 : (4:Nat) ≤ 2 ^ (k - 2) := by
    calc (4:Nat) = 2 ^ 2 := by norm_num
    _ ≤ 2 ^ (k - 2) := Nat.pow_le_pow_right (by norm_num) (by omega)
  have hn := hp.n_le
  have hni := hp.n_eq
  have hins := hp.ins_eq
  rw [hexp, hce] at hn
  refine ⟨by omega, by omega, ?_⟩
  rw [hce2]
  omega

/-- In a table of the pure-put invariant, a key distinct from every stored
key matches no probe step. -/
theorem no_hit_of_fresh (t : HT_T) (kvs : List (List Nat × Option Nat)) (hp : PutInv t kvs)
    (hall : ∀ kv ∈ kvs, validKey kv.1)
    (key : List Nat) (hk : validKey key)
    (hfresh : ∀ kv ∈ kvs, kv.1 ≠ key) :
    ∀ e, ¬hitAt t key key.length (_HT_hash key key.length) e := by
  intro e hhit
  obtain ⟨h1, h2, h3, h4⟩ := hhit
  have hcap0 : 0 < t.cap := by
    obtain ⟨k, -, hkc⟩ := hp.cap_pow
    rw [hkc]
    positivity
  have hq : HT_CALC_LOC t (_HT_hash key key.length + e) < t.cap := HT_CALC_LOC_lt t _ hcap0
  unfold probeBucket at h1 h3 h4
  obtain ⟨kv, hmem, hbind⟩ := hp.sound _ hq h1
  obtain ⟨hb1, hb2, hb3⟩ := hbind
  rw [hb3] at h3 h4
  have hlen : kv.1.length = key.length := h3
  have h4b : strncmp key (kv.1 ++ List.replicate (HT_MAX_KEY_LEN - kv.1.length) 0)
      key.length = 0 := h4
  have hkey : key = kv.1 :=
    (strncmp_eq_zero_iff key kv.1 (List.replicate (HT_MAX_KEY_LEN - kv.1.length) 0)
      hk (hall kv hmem) hlen.symm).mp h4b
  exact hfresh kv hmem hkey.symm

theorem PutInv_new (req : Nat) : PutInv (HT_new req) [] := by
  obtain ⟨k, hk4, -, hcap⟩ := HT_new_cap_pow req
  refine ⟨?_, ?_, ⟨k, hk4, hcap⟩, rfl, rfl, rfl, Nat.zero_le _, ?_, ?_, ?_, ?_, ?_, ?_⟩
  · show (List.replicate (HT_new req).cap emptyBucket).length = _
    simp
  · show (List.replicate (HT_new req).cap zeroEntry).length = _
    simp
  · intro i hi
    rw [bucketAt_new req i hi]
    right
    rfl
  · intro j _
    exact entryAt_new req j
  · intro i hi hocc
    rw [bucketAt_new req i hi] at hocc
    exact absurd hocc (by decide)
  · intro i j hi _ _ hocc
    rw [bucketAt_new req i hi] at hocc
    exact absurd hocc (by decide)
  · intro kv hkv
    exact absurd hkv (List.not_mem_nil kv)
  · intro p hp hocc
    rw [bucketAt_new req p hp] at hocc
    exact absurd hocc (by decide)

/-- A triggered resize preserves the pure-put invariant, and afterwards one
more insert fits below the new expansion threshold. -/
theorem PutInv_expand (t : HT_T) (kvs : List (List Nat × Option Nat)) (hp : PutInv t kvs) :
    ∃ t', _HT_expand t true = some t' ∧ PutInv t' kvs ∧ t'.n ≤ t'.expand := by
  obtain ⟨k, hk4, hcap⟩ := hp.cap_pow
  obtain ⟨t', heq, hcap', hn', hins', hexp', hilen', hvlen', hentlo, henthi, hstates,
    hocc_from, hplaced, hocc, hlinj⟩ :=
    _HT_expand_spec t k hcap (by omega) hp.ilen hp.loc_inj
  obtain ⟨hroom1, hroom2, hroom3⟩ := PutInv_room t kvs hp
  have hfill : ∀ i, i < t.cap → (bucketAt t i).state = HT_BUCKET_OCCUPIED →
      (bucketAt t i).loc < t.cap := by
    intro i hi ho
    have := hp.locs i hi ho
    omega
  refine ⟨t', heq,
    ⟨hilen', hvlen', ⟨k + 1, by omega, by rw [hcap', hcap]; ring⟩, hexp',
      by rw [hn']; exact hp.n_eq, by rw [hins']; exact hp.ins_eq,
      by rw [hn', hexp', hcap']; omega, hstates, ?_, ?_, hlinj, ?_, ?_⟩, ?_⟩
  · intro j hj
    rw [hins'] at hj
    by_cases hjc : j < t.cap
    · rw [hentlo j hjc]
      exact hp.fresh j hj
    · exact henthi j (by omega)
  · intro p hpc hpocc
    obtain ⟨i, hi, hio, hieq⟩ := hocc_from p hpc hpocc
    rw [hieq, hins']
    exact hp.locs i hi hio
  · intro kv hmem
    obtain ⟨p, hp1, hb, hpath⟩ := hp.complete kv hmem
    obtain ⟨p2, hp2c, hp2eq, hp2path⟩ := hplaced p hp1 hb.1
    refine ⟨p2, hp2c, ⟨?_, ?_, ?_⟩, hp2path⟩
    · rw [hp2eq]
      exact hb.1
    · rw [hp2eq]
      exact hb.2.1
    · rw [hp2eq, hentlo _ (hfill p hp1 hb.1)]
      exact hb.2.2
  · intro p hpc hpocc
    obtain ⟨i, hi, hio, hieq⟩ := hocc_from p hpc hpocc
    obtain ⟨kv, hmem, hbind⟩ := hp.sound i hi hio
    refine ⟨kv, hmem, ?_, ?_, ?_⟩
    · rw [hieq]
      exact hbind.1
    · rw [hieq]
      exact hbind.2.1
    · rw [hieq, hentlo _ (hfill i hi hbind.1)]
      exact hbind.2.2
  · rw [hn', hexp', hcap']
    omega

/-- The probe loop of `HT_put` on a fresh valid key inserts it at the first
EMPTY bucket and extends the pure-put invariant by the new pair. -/
theorem PutInv_putLoop (t : HT_T) (kvs : List (List Nat × Option Nat)) (hp : PutInv t kvs)
    (hall : ∀ kv ∈ kvs, validKey kv.1)
    (key : List Nat) (value : Option Nat) (hk : validKey key)
    (hlen : key.length ≤ HT_MAX_KEY_LEN - 1)
    (hfresh : ∀ kv ∈ kvs, kv.1 ≠ key)
    (hroom : t.n ≤ t.expand) :
    PutInv (putLoop key key.length value (_HT_hash key key.length) t 0 (t.cap + 1)).1
      (kvs ++ [(key, value)]) := by
  obtain ⟨k, hk4, hcap⟩ := hp.cap_pow
  have hcap0 : 0 < t.cap := by
    rw [hcap]
    positivity
  obtain ⟨hr1, hr2, hr3⟩ := PutInv_room t kvs hp
  have hnohit := no_hit_of_fresh t kvs hp hall key hk hfresh
  obtain ⟨p0, hp0c, hp0s⟩ :=
    exists_not_occupied_of_locs t t.ins_loc hp.locs hp.loc_inj hr2
  obtain ⟨d, hdc, hdfree, hdocc⟩ :=
    exists_least_free t (_HT_hash key key.length) k hcap ⟨p0, hp0c, hp0s⟩
  have hscan := putLoop_insert_scan key key.length value (_HT_hash key key.length) t d
    hdfree (t.cap + 1) 0 (by omega) (by omega) (fun e _ he2 => ⟨hdocc e he2, hnohit e⟩)
  have hq : HT_CALC_LOC t (_HT_hash key key.length + d) < t.cap := HT_CALC_LOC_lt t _ hcap0
  have hqemp : (bucketAt t (HT_CALC_LOC t (_HT_hash key key.length + d))).state =
      HT_EMPTY_BUCKET := by
    rcases hp.states _ hq with ho | he
    · exact absurd ho hdfree
    · exact he
  rw [hscan, putInsert_empty t key key.length value (_HT_hash key key.length)
    (HT_CALC_LOC t (_HT_hash key key.length + d)) d hqemp]
  set t2 := { t with
      values := t.values.set t.ins_loc
        ({ k := (strncpyList (entryAt t t.ins_loc).k key key.length).set (key.length + 1) 0,
           k_len := key.length, v := value }),
      index := t.index.set (HT_CALC_LOC t (_HT_hash key key.length + d))
        ({ hashcode := _HT_hash key key.length, loc := t.ins_loc,
           state := HT_BUCKET_OCCUPIED }),
      max_probe := max t.max_probe d,
      ins_loc := t.ins_loc + 1,
      n := t.n + 1 } with ht2
  show PutInv t2 (kvs ++ [(key, value)])
  have hql : HT_CALC_LOC t (_HT_hash key key.length + d) < t.index.length := by
    rw [hp.ilen]
    exact hq
  have hinsv : t.ins_loc < t.values.length := by
    rw [hp.vlen]
    exact hr2
  have hb : ∀ i, bucketAt t2 i =
      (t.index.set (HT_CALC_LOC t (_HT_hash key key.length + d))
        ({ hashcode := _HT_hash key key.length, loc := t.ins_loc,
           state := HT_BUCKET_OCCUPIED })).getD i emptyBucket := by
    intro i
    rw [ht2]
    rfl
  have he : ∀ l, entryAt t2 l =
      (t.values.set t.ins_loc
        ({ k := (strncpyList (entryAt t t.ins_loc).k key key.length).set (key.length + 1) 0,
           k_len := key.length, v := value })).getD l zeroEntry := by
    intro l
    rw [ht2]
    rfl
  have hbq : bucketAt t2 (HT_CALC_LOC t (_HT_hash key key.length + d)) =
      ({ hashcode := _HT_hash key key.length, loc := t.ins_loc,
         state := HT_BUCKET_OCCUPIED } : HT_BUCKET_T) := by
    rw [hb]
    exact getD_set_self hql
  have hbne : ∀ i, HT_CALC_LOC t (_HT_hash key key.length + d) ≠ i →
      bucketAt t2 i = bucketAt t i := by
    intro i hi
    rw [hb]
    exact getD_set_ne hi
  have hE : (strncpyList (entryAt t t.ins_loc).k key key.length).set (key.length + 1) 0 =
      storedKey key := by
    rw [hp.fresh t.ins_loc (Nat.le_refl _)]
    exact storedBuf_eq key hlen
  have heq0 : entryAt t2 t.ins_loc =
      ({ k := storedKey key, k_len := key.length, v := value } : HT_ENTRY_T) := by
    rw [he, getD_set_self hinsv, hE]
  have hene : ∀ l, t.ins_loc ≠ l → entryAt t2 l = entryAt t l := by
    intro l hl
    rw [he]
    exact getD_set_ne hl
  have hc2 : t2.cap = t.cap := by rw [ht2]
  have hm2 : t2.max_probe = max t.max_probe d := by rw [ht2]
  have hi2 : t2.ins_loc = t.ins_loc + 1 := by rw [ht2]
  have hn2 : t2.n = t.n + 1 := by rw [ht2]
  have hx2 : t2.expand = t.expand := by rw [ht2]
  have hmod : HT_CALC_LOC t (_HT_hash key key.length + d) =
      (_HT_hash key key.length + d) % t.cap := HT_CALC_LOC_eq_mod t _ k hcap
  have hpd : probeDist t2.cap
      (bucketAt t2 (HT_CALC_LOC t (_HT_hash key key.length + d))).hashcode
      (HT_CALC_LOC t (_HT_hash key key.length + d)) = d := by
    rw [hc2, hbq]
    show probeDist t.cap (_HT_hash key key.length)
      (HT_CALC_LOC t (_HT_hash key key.length + d)) = d
    rw [hmod]
    exact probeDist_probe t.cap _ d hcap0 hdc
  have hpathq : pathOK t2 (HT_CALC_LOC t (_HT_hash key key.length + d)) := by
    refine ⟨?_, ?_⟩
    · rw [hpd, hm2]
      exact le_max_right _ _
    · intro e he'
      rw [hpd] at he'
      rw [hbq, hc2]
      show (bucketAt t2 ((_HT_hash key key.length + e) % t.cap)).state = HT_BUCKET_OCCUPIED
      by_cases hpos : (_HT_hash key key.length + e) % t.cap =
          HT_CALC_LOC t (_HT_hash key key.length + d)
      · rw [hpos, hbq]
      · rw [hbne _ (fun hc => hpos hc.symm)]
        have hstep := hdocc e he'
        unfold probeBucket at hstep
        rw [HT_CALC_LOC_eq_mod t _ k hcap] at hstep
        exact hstep
  have hpath2 : ∀ p, p < t.cap → (bucketAt t p).state = HT_BUCKET_OCCUPIED →
      pathOK t p → pathOK t2 p := by
    intro p hpc hpocc hpath
    have hpq : HT_CALC_LOC t (_HT_hash key key.length + d) ≠ p := by
      intro hc
      rw [← hc] at hpocc
      rw [hqemp] at hpocc
      exact absurd hpocc (by decide)
    obtain ⟨hp1, hp2'⟩ := hpath
    have hbp : bucketAt t2 p = bucketAt t p := hbne p hpq
    refine ⟨?_, ?_⟩
    · rw [hbp, hc2, hm2]
      exact le_trans hp1 (le_max_left _ _)
    · intro e he'
      rw [hbp, hc2] at he' ⊢
      by_cases hpos : ((bucketAt t p).hashcode + e) % t.cap =
          HT_CALC_LOC t (_HT_hash key key.length + d)
      · rw [hpos, hbq]
      · rw [hbne _ (fun hc => hpos hc.symm)]
        exact hp2' e he'
  refine ⟨?_, ?_, ⟨k, hk4, by rw [hc2]; exact hcap⟩, by rw [hx2, hc2]; exact hp.exp_eq,
    ?_, ?_, ?_, ?_, ?_, ?_, ?_, ?_, ?_⟩
  · show (t.index.set _ _).length = t2.cap
    rw [List.length_set, hc2]
    exact hp.ilen
  · show (t.values.set _ _).length = t2.cap
    rw [List.length_set, hc2]
    exact hp.vlen
  · rw [hn2, hp.n_eq]
    simp
  · rw [hi2, hp.ins_eq]
    simp
  · rw [hn2, hx2]
    omega
  · intro i hi
    rw [hc2] at hi
    by_cases hiq : HT_CALC_LOC t (_HT_hash key key.length + d) = i
    · subst hiq
      rw [hbq]
      left
      rfl
    · rw [hbne i hiq]
      exact hp.states i hi
  · intro j hj
    rw [hi2] at hj
    rw [hene j (by omega)]
    exact hp.fresh j (by omega)
  · intro i hi hiocc
    rw [hc2] at hi
    rw [hi2]
    by_cases hiq : HT_CALC_LOC t (_HT_hash key key.length + d) = i
    · subst hiq
      rw [hbq]
      show t.ins_loc < t.ins_loc + 1
      omega
    · rw [hbne i hiq] at hiocc ⊢
      have := hp.locs i hi hiocc
      omega
  · intro i j hi hj hij hiocc hjocc
    rw [hc2] at hi hj
    by_cases hiq : HT_CALC_LOC t (_HT_hash key key.length + d) = i
    · subst hiq
      rw [hbq]
      rw [hbne j hij] at hjocc ⊢
      have := hp.locs j hj hjocc
      show t.ins_loc ≠ (bucketAt t j).loc
      omega
    · rw [hbne i hiq] at hiocc ⊢
      by_cases hjq : HT_CALC_LOC t (_HT_hash key key.length + d) = j
      · subst hjq
        rw [hbq]
        have := hp.locs i hi hiocc
        show (bucketAt t i).loc ≠ t.ins_loc
        omega
      · rw [hbne j hjq] at hjocc ⊢
        exact hp.loc_inj i j hi hj hij hiocc hjocc
  · intro kv hmem
    rcases List.mem_append.mp hmem with hold | hnew
    · obtain ⟨p, hp1, hbind, hpath⟩ := hp.complete kv hold
      have hpq : HT_CALC_LOC t (_HT_hash key key.length + d) ≠ p := by
        intro hc
        have := hbind.1
        rw [← hc, hqemp] at this
        exact absurd this (by decide)
      refine ⟨p, by rw [hc2]; exact hp1, ⟨?_, ?_, ?_⟩, hpath2 p hp1 hbind.1 hpath⟩
      · rw [hbne p hpq]
        exact hbind.1
      · rw [hbne p hpq]
        exact hbind.2.1
      · rw [hbne p hpq, hene _ (by have := hp.locs p hp1 hbind.1; omega)]
        exact hbind.2.2
    · have hkv : kv = (key, value) := List.mem_singleton.mp hnew
      subst hkv
      refine ⟨HT_CALC_LOC t (_HT_hash key key.length + d), by rw [hc2]; exact hq,
        ⟨?_, ?_, ?_⟩, hpathq⟩
      · rw [hbq]
      · rw [hbq]
      · rw [hbq]
        show entryAt t2 t.ins_loc = _
        rw [heq0]
  · intro p hpc hpocc
    rw [hc2] at hpc
    by_cases hpq : HT_CALC_LOC t (_HT_hash key key.length + d) = p
    · subst hpq
      refine ⟨(key, value), List.mem_append.mpr (Or.inr (List.mem_singleton.mpr rfl)),
        ?_, ?_, ?_⟩
      · rw [hbq]
      · rw [hbq]
      · rw [hbq]
        show entryAt t2 t.ins_loc = _
        rw [heq0]
    · rw [hbne p hpq] at hpocc
      obtain ⟨kv, hmem, hbind⟩ := hp.sound p hpc hpocc
      refine ⟨kv, List.mem_append.mpr (Or.inl hmem), ?_, ?_, ?_⟩
      · rw [hbne p hpq]
        exact hbind.1
      · rw [hbne p hpq]
        exact hbind.2.1
      · rw [hbne p hpq, hene _ (by have := hp.locs p hpc hpocc; omega)]
        exact hbind.2.2

/-- `HT_put` of a fresh valid key (allocation succeeding) extends the
pure-put invariant. -/
theorem PutInv_put (t : HT_T) (kvs : List (List Nat × Option Nat)) (hp : PutInv t kvs)
    (hall : ∀ kv ∈ kvs, validKey kv.1)
    (key : List Nat) (value : Option Nat) (hk : validKey key)
    (hlen : key.length ≤ HT_MAX_KEY_LEN - 1)
    (hfresh : ∀ kv ∈ kvs, kv.1 ≠ key) :
    PutInv (HT_put t key key.length value true).1 (kvs ++ [(key, value)]) := by
  unfold HT_put
  rw [if_neg (show ¬key.length > HT_MAX_KEY_LEN - 1 from by omega)]
  dsimp only
  by_cases htrig : t.n > t.expand ∨ t.n = t.cap ∨ t.ins_loc = t.cap
  · rw [if_pos htrig]
    obtain ⟨t1, heq, hp1, hroom1⟩ := PutInv_expand t kvs hp
    rw [heq]
    show PutInv (putLoop key key.length value (_HT_hash key key.length) t1 0
      (t1.cap + 1)).1 (kvs ++ [(key, value)])
    exact PutInv_putLoop t1 kvs hp1 hall key value hk hlen hfresh hroom1
  · rw [if_neg htrig]
    push_neg at htrig
    show PutInv (putLoop key key.length value (_HT_hash key key.length) t 0
      (t.cap + 1)).1 (kvs ++ [(key, value)])
    exact PutInv_putLoop t kvs hp hall key value hk hlen hfresh (by omega)

/-- Folding a pairwise-distinct list of valid pairs into a fresh table by
`HT_put` establishes the pure-put invariant. -/
theorem PutInv_putAll (req : Nat) :
    ∀ kvs : List (List Nat × Option Nat),
      (∀ kv ∈ kvs, validKey kv.1 ∧ kv.1.length ≤ HT_MAX_KEY_LEN - 1) →
      kvs.Pairwise (fun a b => a.1 ≠ b.1) →
      PutInv (putAll (HT_new req) kvs) kvs := by
  intro kvs
  induction kvs using List.reverseRecOn with
  | nil => intro _ _; exact PutInv_new req
  | append_singleton l a ih =>
      intro hvalid hdist
      obtain ⟨hd_l, -, hR⟩ := List.pairwise_append.mp hdist
      have hip := ih (fun kv h => hvalid kv (List.mem_append.mpr (Or.inl h))) hd_l
      have hputall : putAll (HT_new req) (l ++ [a]) =
          (HT_put (putAll (HT_new req) l) a.1 a.1.length a.2 true).1 := by
        unfold putAll
        rw [List.foldl_append]
        rfl
      rw [hputall]
      have hva := hvalid a (List.mem_append.mpr (Or.inr (List.mem_singleton.mpr rfl)))
      have hstep := PutInv_put (putAll (HT_new req) l) l hip
        (fun kv h => (hvalid kv (List.mem_append.mpr (Or.inl h))).1)
        a.1 a.2 hva.1 hva.2
        (fun kv h => hR kv h a (List.mem_singleton.mpr rfl))
      simpa using hstep

/-- Under the pure-put invariant, `HT_get` returns each stored pair's value
and `HT_exists` reports it present. -/
theorem PutInv_lookup (t : HT_T) (kvs : List (List Nat × Option Nat)) (hp : PutInv t kvs)
    (hall : ∀ kv ∈ kvs, validKey kv.1 ∧ kv.1.length ≤ HT_MAX_KEY_LEN - 1)
    (hdist : kvs.Pairwise (fun a b => a.1 ≠ b.1)) :
    ∀ kv ∈ kvs, HT_get t kv.1 kv.1.length = kv.2 ∧
      HT_exists t kv.1 kv.1.length = true := by
  intro kv hmem
  obtain ⟨k, hk4, hcap⟩ := hp.cap_pow
  have hcap0 : 0 < t.cap := by
    rw [hcap]
    positivity
  obtain ⟨p, hpc, hbind, hpath⟩ := hp.complete kv hmem
  obtain ⟨hpa, hpb⟩ := hpath
  rw [hbind.2.1] at hpa hpb
  have hpos : HT_CALC_LOC t (_HT_hash kv.1 kv.1.length +
      probeDist t.cap (_HT_hash kv.1 kv.1.length) p) = p := by
    rw [HT_CALC_LOC_eq_mod t _ k hcap]
    exact probe_hits t.cap _ p hcap0 hpc
  have hvkv := hall kv hmem
  have hhit : hitAt t kv.1 kv.1.length (_HT_hash kv.1 kv.1.length)
      (probeDist t.cap (_HT_hash kv.1 kv.1.length) p) := by
    refine ⟨?_, ?_, ?_, ?_⟩
    · unfold probeBucket
      rw [hpos]
      exact hbind.1
    · unfold probeBucket
      rw [hpos]
      exact hbind.2.1
    · unfold probeBucket
      rw [hpos, hbind.2.2]
    · unfold probeBucket
      rw [hpos, hbind.2.2]
      exact (strncmp_eq_zero_iff kv.1 kv.1
        (List.replicate (HT_MAX_KEY_LEN - kv.1.length) 0) hvkv.1 hvkv.1 rfl).mpr rfl
  have hex : ∃ e, hitAt t kv.1 kv.1.length (_HT_hash kv.1 kv.1.length) e := ⟨_, hhit⟩
  have hd0 := Nat.find_spec hex
  have hd0le : Nat.find hex ≤ probeDist t.cap (_HT_hash kv.1 kv.1.length) p :=
    Nat.find_min' hex hhit
  have hprefacts : ∀ e, 0 ≤ e → e < Nat.find hex →
      ¬hitAt t kv.1 kv.1.length (_HT_hash kv.1 kv.1.length) e ∧
      ¬emptyAtStep t (_HT_hash kv.1 kv.1.length) e := by
    intro e _ he
    refine ⟨Nat.find_min hex he, ?_⟩
    unfold emptyAtStep probeBucket
    rw [HT_CALC_LOC_eq_mod t _ k hcap]
    have := hpb e (by omega)
    rw [this]
    decide
  have hq0 : HT_CALC_LOC t (_HT_hash kv.1 kv.1.length + Nat.find hex) < t.cap :=
    HT_CALC_LOC_lt t _ hcap0
  obtain ⟨g1, g2, g3, g4⟩ := hd0
  unfold probeBucket at g1 g3 g4
  obtain ⟨kv2, hmem2, hbind2⟩ := hp.sound _ hq0 g1
  rw [hbind2.2.2] at g3 g4
  have hlen2 : kv2.1.length = kv.1.length := g3
  have hg4 : strncmp kv.1 (kv2.1 ++ List.replicate (HT_MAX_KEY_LEN - kv2.1.length) 0)
      kv.1.length = 0 := g4
  have hkeq : kv.1 = kv2.1 :=
    (strncmp_eq_zero_iff kv.1 kv2.1 (List.replicate (HT_MAX_KEY_LEN - kv2.1.length) 0)
      hvkv.1 (hall kv2 hmem2).1 hlen2.symm).mp hg4
  have hkv12 : kv = kv2 := pairwise_keys_eq kvs hdist kv hmem kv2 hmem2 hkeq
  constructor
  · unfold HT_get
    rw [if_neg (show ¬kv.1.length > HT_MAX_KEY_LEN - 1 from by have := hvkv.2; omega)]
    rw [getLoop_found kv.1 kv.1.length _ t (Nat.find hex) (Nat.find_spec hex)
      (t.max_probe + 1) 0 (by omega) (by omega) hprefacts]
    show (entryAt t (bucketAt t (HT_CALC_LOC t
      (_HT_hash kv.1 kv.1.length + Nat.find hex))).loc).v = kv.2
    rw [hbind2.2.2, hkv12]
  · unfold HT_exists
    rw [if_neg (show ¬kv.1.length > HT_MAX_KEY_LEN - 1 from by have := hvkv.2; omega)]
    exact existsLoop_found kv.1 kv.1.length _ t (Nat.find hex) (Nat.find_spec hex)
      (t.max_probe + 1) 0 (by omega) (by omega) hprefacts

/-- Claim C1: for every sequence of puts of pairwise-distinct valid keys of
length at most `MAX_KEY_LEN - 1` into a freshly constructed table with the
default strategies, with no intervening removes and all allocations
succeeding, every subsequent `HT_get` of a stored key returns its value and
`HT_exists` returns true. -/
theorem C1_round_trip (req : Nat) (kvs : List (List Nat × Option Nat))
    (hvalid : ∀ kv ∈ kvs, validKey kv.1 ∧ kv.1.length ≤ HT_MAX_KEY_LEN - 1)
    (hdist : kvs.Pairwise (fun a b => a.1 ≠ b.1)) :
    ∀ kv ∈ kvs, HT_get (putAll (HT_new req) kvs) kv.1 kv.1.length = kv.2 ∧
      HT_exists (putAll (HT_new req) kvs) kv.1 kv.1.length = true :=
  PutInv_lookup _ kvs (PutInv_putAll req kvs hvalid hdist) hvalid hdist

theorem C1_round_trip_witness :
    HT_get (putAll (HT_new 0) [([97], some 1), ([98, 99], some 2)]) [98, 99] 2 = some 2 ∧
    HT_exists (putAll (HT_new 0) [([97], some 1), ([98, 99], some 2)]) [98, 99] 2 = true :=
  C1_round_trip 0 [([97], some 1), ([98, 99], some 2)] (by decide) (by decide)
    ([98, 99], some 2) (by decide)
